import Mathlib

/-!
Verification of the Fallback PoSt vanilla proof engine
(`storage-proofs-post/src/fallback/vanilla.rs`).

The engine is generic over a hash capability (`hash2`, SHA-256) and a Merkle
tree capability (`gen_cached_proof`, proof `validate` / `root` / `path` /
`expected_len`).  Those collaborators are consumed as opaque contracts, so the
embedding carries them in a `HashEnv` record and in function-valued fields of
the tree / proof structures.  Machine integers (`u64` / `usize` on a 64-bit
target) are modelled as `Nat`; the arithmetic whose overflow is reachable from
free inputs is reduced modulo `2 ^ 64` (`wmul`, `wadd`, `checked_mul`).
Rust panics (slice indexing out of bounds, `%` by zero, `assert!`,
`slice::chunks` with size 0) are modelled by the distinguished error value
`PoStError.panicked`, kept separate from `anyhow::ensure` failures
(`PoStError.ensureFailure`) and from the domain-level
`Error::FaultySectors` (`PoStError.faultySectors`).
-/

namespace FallbackPoSt

/-- Word size of the 64-bit target (`usize` / `u64`). -/
def USIZE : Nat := 2 ^ 64

/-- Wrapping (release-mode) multiplication on `usize`. -/
def wmul (a b : Nat) : Nat := a * b % USIZE

/-- Wrapping (release-mode) addition on `usize`. -/
def wadd (a b : Nat) : Nat := (a + b) % USIZE

/-- `usize::checked_mul`. -/
def checked_mul (a b : Nat) : Option Nat :=
  if a * b < USIZE then some (a * b) else none

/-- `storage_proofs_core::util::NODE_SIZE`: 32-byte field nodes. -/
def NODE_SIZE : Nat := 32

/-- A domain element is observed through its canonical byte view
(`AsRef::<[u8]>::as_ref`); equality on domain elements is byte equality. -/
abbrev Dom := List Nat

/-- `u64::to_le_bytes` / `usize::to_le_bytes` on a 64-bit target. -/
def le64 (n : Nat) : List Nat :=
  (List.range 8).map fun i => n / 256 ^ i % 256

/-- Little-endian read of a byte list. -/
def readLEAux : List Nat → Nat
  | [] => 0
  | b :: bs => b + 256 * readLEAux bs

/-- `LittleEndian::read_u64(&hash[..8])`: first 8 bytes, little endian. -/
def readU64LE (bytes : List Nat) : Nat := readLEAux (bytes.take 8)

/-- The external collaborator contracts the engine consumes: the SHA-256
digest, the two-element hash `hash2`, `default_rows_to_discard` and the
tree arity `Tree::Arity::to_usize()`. -/
structure HashEnv where
  sha256 : List Nat → List Nat
  hash2 : Dom → Dom → Dom
  rowsToDiscard : Nat → Nat → Nat
  arity : Nat

/-- Streaming state of `sha2::Sha256`: the digest of the accumulated buffer. -/
structure Sha256State where
  buf : List Nat

/-- `Sha256::new()`. -/
def Sha256.mk : Sha256State := ⟨[]⟩

/-- `hasher.update(data)`. -/
def Sha256State.update (s : Sha256State) (data : List Nat) : Sha256State :=
  ⟨s.buf ++ data⟩

/-- `hasher.finalize()`. -/
def Sha256State.finalize (env : HashEnv) (s : Sha256State) : List Nat :=
  env.sha256 s.buf

/-- Outcomes of engine calls.  `ensureFailure` models `anyhow::ensure!` /
generic engine errors, `faultySectors` models `Error::FaultySectors`,
and `panicked` models a Rust panic (it is not an `Err` return in Rust,
but it is an abnormal outcome distinct from every `Err`). -/
inductive PoStError where
  | ensureFailure : PoStError
  | faultySectors : List Nat → PoStError
  | panicked : PoStError
deriving DecidableEq

instance {ε α : Type} [DecidableEq ε] [DecidableEq α] :
    DecidableEq (Except ε α) := fun x y =>
  match x, y with
  | .ok a, .ok b =>
      if h : a = b then .isTrue (h ▸ rfl)
      else .isFalse fun hc => h (Except.ok.inj hc)
  | .error a, .error b =>
      if h : a = b then .isTrue (h ▸ rfl)
      else .isFalse fun hc => h (Except.error.inj hc)
  | .ok _, .error _ => .isFalse fun hc => Except.noConfusion hc
  | .error _, .ok _ => .isFalse fun hc => Except.noConfusion hc

/-- `PoStShape`. -/
inductive PoStShape where
  | Window : PoStShape
  | Winning : PoStShape
deriving DecidableEq

/-- `PublicParams` (same shape as `SetupParams`). -/
structure PublicParams where
  sector_size : Nat
  challenge_count : Nat
  sector_count : Nat
  shape : PoStShape

/-- `ChallengeRequirements`. -/
structure ChallengeRequirements where
  minimum_challenge_count : Nat

/-- `PublicSector`. -/
structure PublicSector where
  id : Nat
  comm_r : Dom
deriving DecidableEq

/-- `PublicInputs`. -/
structure PublicInputs where
  randomness : Dom
  prover_id : Dom
  sectors : List PublicSector
  k : Option Nat

/-- A Merkle inclusion proof, observed through the `MerkleProofTrait`
surface the verifier uses: `root`, `leaf`, `path`, `validate`,
`expected_len`. -/
structure MerkleProofM where
  root : Dom
  leaf : Dom
  path : List (List Dom × Nat)
  validate : Nat → Bool
  expected_len : Nat → Nat

instance : Inhabited MerkleProofM :=
  ⟨{ root := [], leaf := [], path := [], validate := fun _ => false,
     expected_len := fun _ => 0 }⟩

/-- The borrowed tree handle: `leafs()` and `gen_cached_proof`. -/
structure TreeHandle where
  leafs : Nat
  gen_cached_proof : Nat → Option Nat → Except Unit MerkleProofM

/-- `PrivateSector`. -/
structure PrivateSector where
  tree : TreeHandle
  comm_c : Dom
  comm_r_last : Dom

/-- `PrivateInputs`. -/
structure PrivateInputs where
  sectors : List PrivateSector

/-- `SectorProof`. -/
structure SectorProof where
  inclusion_proofs : List MerkleProofM
  comm_c : Dom
  comm_r_last : Dom

instance : Inhabited SectorProof := ⟨{ inclusion_proofs := [], comm_c := [], comm_r_last := [] }⟩

/-- `Proof` (one partition proof). -/
structure Proof where
  sectors : List SectorProof

/-- `ProofOrFault`. -/
inductive ProofOrFault where
  | proof : MerkleProofM → ProofOrFault
  | fault : Nat → ProofOrFault

/-! ## Challenge derivation -/

/-- `generate_sector_challenge`.  The Rust function computes
`SHA256(prover_id || randomness || n.to_le_bytes())`, reads the first 8 bytes
little-endian and reduces modulo `sector_set_len`; the reduction panics when
`sector_set_len == 0`. -/
def generate_sector_challenge (env : HashEnv) (randomness : Dom) (n : Nat)
    (sector_set_len : Nat) (prover_id : Dom) : Except PoStError Nat :=
  let hasher := Sha256.mk
  let hasher := hasher.update prover_id
  let hasher := hasher.update randomness
  let hasher := hasher.update (le64 n)
  let hash := hasher.finalize env
  let sector_challenge := readU64LE hash
  if sector_set_len = 0 then .error .panicked
  else .ok (sector_challenge % sector_set_len)

/-- `generate_sector_challenges`. -/
def generate_sector_challenges (env : HashEnv) (randomness : Dom)
    (challenge_count : Nat) (sector_set_len : Nat) (prover_id : Dom) :
    Except PoStError (List Nat) :=
  (List.range challenge_count).mapM fun n =>
    generate_sector_challenge env randomness n sector_set_len prover_id

/-- `generate_leaf_challenge`.  `SHA256(randomness || le64(sector_id) ||
le64(leaf_challenge_index))`, first 8 bytes little-endian, reduced modulo
`sector_size / NODE_SIZE`; the reduction panics when that quotient is 0. -/
def generate_leaf_challenge (env : HashEnv) (pub_params : PublicParams)
    (randomness : Dom) (sector_id : Nat) (leaf_challenge_index : Nat) :
    Except PoStError Nat :=
  let hasher := Sha256.mk
  let hasher := hasher.update randomness
  let hasher := hasher.update (le64 sector_id)
  let hasher := hasher.update (le64 leaf_challenge_index)
  let hash := hasher.finalize env
  let leaf_challenge := readU64LE hash
  if pub_params.sector_size / NODE_SIZE = 0 then .error .panicked
  else .ok (leaf_challenge % (pub_params.sector_size / NODE_SIZE))

/-- `generate_leaf_challenges`. -/
def generate_leaf_challenges (env : HashEnv) (pub_params : PublicParams)
    (randomness : Dom) (sector_id : Nat) (challenge_count : Nat) :
    Except PoStError (List Nat) :=
  (List.range challenge_count).mapM fun challenge_index =>
    generate_leaf_challenge env pub_params randomness sector_id challenge_index

/-- Restatement of the leaf-challenge derivation in the words of the spec
(§4.2 / §6): hash of the concatenated preimage
`randomness || le64(sector_id) || le64(index)`, first 8 bytes little-endian,
reduced modulo `sector_size / NODE_SIZE`.  Note there is no `prover_id`
anywhere in the preimage. -/
def leafChallengeSpec (env : HashEnv) (pub_params : PublicParams)
    (randomness : Dom) (sector_id : Nat) (leaf_challenge_index : Nat) :
    Except PoStError Nat :=
  if pub_params.sector_size / NODE_SIZE = 0 then .error .panicked
  else .ok (readU64LE
      (env.sha256 (randomness ++ le64 sector_id ++ le64 leaf_challenge_index))
      % (pub_params.sector_size / NODE_SIZE))

/-- Restatement of the sector-challenge derivation in the words of the spec:
hash of `prover_id || randomness || le64(n)`, first 8 bytes little-endian,
reduced modulo `sector_set_len`; fails only if `sector_set_len = 0`. -/
def sectorChallengeSpec (env : HashEnv) (randomness : Dom) (n : Nat)
    (sector_set_len : Nat) (prover_id : Dom) : Except PoStError Nat :=
  if sector_set_len = 0 then .error .panicked
  else .ok (readU64LE (env.sha256 (prover_id ++ randomness ++ le64 n))
      % sector_set_len)

/-- The value `generate_leaf_challenge` returns when the modulus is positive. -/
def leafChalVal (env : HashEnv) (pub_params : PublicParams) (randomness : Dom)
    (sector_id : Nat) (leaf_challenge_index : Nat) : Nat :=
  readU64LE
      (env.sha256 (randomness ++ le64 sector_id ++ le64 leaf_challenge_index))
    % (pub_params.sector_size / NODE_SIZE)

/-! ## Ordered fault set and chunking -/

/-- `BTreeSet::insert` on a canonically sorted duplicate-free list: this is
the iteration order `BTreeSet<SectorId>` exposes. -/
def btreeInsert (x : Nat) : List Nat → List Nat
  | [] => [x]
  | y :: ys => if x < y then x :: y :: ys
               else if x = y then y :: ys
               else y :: btreeInsert x ys

/-- Fuel-driven worker for `slice::chunks`; the fuel is an upper bound on the
list length, so the `0, _ :: _` case is never reached by `chunks`. -/
def chunksGo (n : Nat) : Nat → List α → List (List α)
  | _, [] => []
  | 0, _ :: _ => []
  | fuel + 1, x :: xs => ((x :: xs).take n) :: chunksGo n fuel ((x :: xs).drop n)

/-- `slice::chunks(n)` for `n > 0` (the Rust call panics for `n = 0`;
callers of `chunks` below guard that case with `PoStError.panicked`). -/
def chunks (n : Nat) (l : List α) : List (List α) := chunksGo n l.length l

/-! ## Prover -/

/-- Classification of one Window challenge: the body of the parallel
`map` over `0..challenge_count` (vanilla.rs:405-428).  An outcome is a
`Proof` iff the tree call succeeded and the freshly generated proof
validates, roots to `comm_r_last`, and the public `comm_r` matches
`hash2(comm_c, comm_r_last)`; otherwise it is a `Fault(sector_id)`. -/
def windowChallengeResult (env : HashEnv) (pub_sector : PublicSector)
    (priv_sector : PrivateSector) (rows_to_discard : Nat)
    (challenges : List Nat) (challenge_index : Nat) : ProofOrFault :=
  let challenged_leaf := challenges.getD challenge_index 0
  match priv_sector.tree.gen_cached_proof challenged_leaf (some rows_to_discard) with
  | .ok proof =>
      if proof.validate challenged_leaf
          && decide (proof.root = priv_sector.comm_r_last)
          && decide (pub_sector.comm_r
              = env.hash2 priv_sector.comm_c priv_sector.comm_r_last)
      then .proof proof
      else .fault pub_sector.id
  | .error _ => .fault pub_sector.id

/-- The merging loop (vanilla.rs:431-441): accepted proofs are pushed in
challenge-index order, faults go into the ordered fault set. -/
def collectResults : List ProofOrFault → List MerkleProofM → List Nat →
    List MerkleProofM × List Nat
  | [], acc, faults => (acc, faults)
  | .proof p :: rest, acc, faults => collectResults rest (acc ++ [p]) faults
  | .fault sector_id :: rest, acc, faults =>
      collectResults rest acc (btreeInsert sector_id faults)

/-- One Window sector (vanilla.rs:378-450): derive the leaf challenges,
classify every challenge, merge, and wrap the accepted inclusion proofs in a
`SectorProof`. -/
def proveWindowSector (env : HashEnv) (pp : PublicParams) (randomness : Dom)
    (pub_sector : PublicSector) (priv_sector : PrivateSector)
    (faults : List Nat) : Except PoStError (SectorProof × List Nat) :=
  let rows_to_discard := env.rowsToDiscard priv_sector.tree.leafs env.arity
  match generate_leaf_challenges env pp randomness pub_sector.id
      pp.challenge_count with
  | .error e => .error e
  | .ok challenges =>
      let results := (List.range pp.challenge_count).map
        (windowChallengeResult env pub_sector priv_sector rows_to_discard
          challenges)
      let merged := collectResults results [] faults
      .ok (⟨merged.1, priv_sector.comm_c, priv_sector.comm_r_last⟩, merged.2)

/-- Iteration over the `(pub_sector, priv_sector)` pairs of one chunk. -/
def proveWindowChunk (env : HashEnv) (pp : PublicParams) (randomness : Dom) :
    List (PublicSector × PrivateSector) → List SectorProof → List Nat →
    Except PoStError (List SectorProof × List Nat)
  | [], proofs, faults => .ok (proofs, faults)
  | (pub_sector, priv_sector) :: rest, proofs, faults =>
      match proveWindowSector env pp randomness pub_sector priv_sector faults with
      | .error e => .error e
      | .ok (sp, faults2) => proveWindowChunk env pp randomness rest
          (proofs ++ [sp]) faults2

/-- The padding loop (vanilla.rs:455-457): `while proofs.len() < n` push a
clone of the last element; indexing the empty vector panics. -/
def padLastGo : Nat → List SectorProof → Except PoStError (List SectorProof)
  | 0, proofs => .ok proofs
  | k + 1, proofs =>
      match proofs.getLast? with
      | none => .error .panicked
      | some last => padLastGo k (proofs ++ [last])

/-- Pad a chunk's sector proofs out to `n` entries. -/
def padLast (proofs : List SectorProof) (n : Nat) :
    Except PoStError (List SectorProof) :=
  padLastGo (n - proofs.length) proofs

/-- Iteration over the zipped public/private chunks (vanilla.rs:368-460). -/
def proveWindowPartitions (env : HashEnv) (pp : PublicParams)
    (randomness : Dom) :
    List (List PublicSector × List PrivateSector) → List Proof → List Nat →
    Except PoStError (List Proof × List Nat)
  | [], acc, faults => .ok (acc, faults)
  | (pub_chunk, priv_chunk) :: rest, acc, faults =>
      match proveWindowChunk env pp randomness (pub_chunk.zip priv_chunk)
          [] faults with
      | .error e => .error e
      | .ok (proofs, faults2) =>
          match padLast proofs pp.sector_count with
          | .error e => .error e
          | .ok padded =>
              proveWindowPartitions env pp randomness rest
                (acc ++ [⟨padded⟩]) faults2

/-- The sequential Winning challenge loop (vanilla.rs:513-539): an accepted
challenge appends a separate single-inclusion-proof `SectorProof`; a rejected
one inserts `pub_sector.id` into the fault set. -/
def proveWinningChallenges (env : HashEnv) (pub_sector : PublicSector)
    (priv_sector : PrivateSector) (rows_to_discard : Nat) :
    List Nat → List SectorProof → List Nat → List SectorProof × List Nat
  | [], proofs, faults => (proofs, faults)
  | challenge :: rest, proofs, faults =>
      match priv_sector.tree.gen_cached_proof challenge (some rows_to_discard) with
      | .ok proof =>
          if proof.validate challenge
              && decide (proof.root = priv_sector.comm_r_last)
              && decide (pub_sector.comm_r
                  = env.hash2 priv_sector.comm_c priv_sector.comm_r_last)
          then proveWinningChallenges env pub_sector priv_sector rows_to_discard
              rest (proofs ++ [⟨[proof], priv_sector.comm_c,
                priv_sector.comm_r_last⟩]) faults
          else proveWinningChallenges env pub_sector priv_sector rows_to_discard
              rest proofs (btreeInsert pub_sector.id faults)
      | .error _ => proveWinningChallenges env pub_sector priv_sector
          rows_to_discard rest proofs (btreeInsert pub_sector.id faults)

/-- The shape-dispatched body of `prove_all_partitions` (vanilla.rs:353-543),
returning the partition proofs together with the accumulated fault set. -/
def proveBody (env : HashEnv) (pp : PublicParams) (pub_inputs : PublicInputs)
    (priv_inputs : PrivateInputs) (partition_count : Nat) :
    Except PoStError (List Proof × List Nat) :=
  match pp.shape with
  | .Window =>
      let num_sectors_per_chunk := pp.sector_count
      let num_sectors := pub_inputs.sectors.length
      if ¬ (num_sectors ≤ wmul partition_count num_sectors_per_chunk) then
        .error .ensureFailure
      else if num_sectors_per_chunk = 0 then
        .error .panicked
      else
        proveWindowPartitions env pp pub_inputs.randomness
          ((chunks num_sectors_per_chunk pub_inputs.sectors).zip
            (chunks num_sectors_per_chunk priv_inputs.sectors)) [] []
  | .Winning =>
      let num_challenges := pp.sector_count
      if ¬ (pub_inputs.sectors.length = num_challenges ∧ 0 < num_challenges) then
        .error .ensureFailure
      else if priv_inputs.sectors.length ≠ pub_inputs.sectors.length then
        .error .ensureFailure
      else if pp.challenge_count ≠ 1 then
        .error .ensureFailure
      else
        match pub_inputs.sectors, priv_inputs.sectors with
        | pub_sector :: _, priv_sector :: _ =>
            let rows_to_discard :=
              env.rowsToDiscard priv_sector.tree.leafs env.arity
            match generate_leaf_challenges env pp pub_inputs.randomness
                pub_sector.id num_challenges with
            | .error e => .error e
            | .ok challenges =>
                let merged := proveWinningChallenges env pub_sector priv_sector
                  rows_to_discard challenges [] []
                .ok ([⟨merged.1⟩], merged.2)
        | _, _ => .error .panicked

/-- `FallbackPoSt::prove_all_partitions`. -/
def prove_all_partitions (env : HashEnv) (pp : PublicParams)
    (pub_inputs : PublicInputs) (priv_inputs : PrivateInputs)
    (partition_count : Nat) : Except PoStError (List Proof) :=
  if priv_inputs.sectors.length ≠ pub_inputs.sectors.length then
    .error .ensureFailure
  else
    match proveBody env pp pub_inputs priv_inputs partition_count with
    | .error e => .error e
    | .ok (partition_proofs, faulty_sectors) =>
        if faulty_sectors.isEmpty then .ok partition_proofs
        else .error (.faultySectors faulty_sectors)

/-! ## Verifier -/

/-- Determination of the challenge index (vanilla.rs:621-636): Window uses the
inclusion-proof position `n`; Winning checks the legacy formula against `i`
(with release-mode wrapping `usize` arithmetic) and then uses `i`. -/
def challengeIndexFor (pp : PublicParams) (j i n : Nat) :
    Except PoStError Nat :=
  match pp.shape with
  | .Winning =>
      let legacy_index :=
        wadd (wmul (wadd (wmul j pp.sector_count) i) pp.challenge_count) n
      if legacy_index ≠ i then .error .ensureFailure else .ok i
  | .Window => .ok n

/-- The inner verification loop over the enumerated inclusion proofs of one
sector (vanilla.rs:620-664). -/
def verifyInclusionProofs (env : HashEnv) (pp : PublicParams)
    (randomness : Dom) (j i sector_id : Nat) (comm_r_last : Dom) :
    List (Nat × MerkleProofM) → Except PoStError Bool
  | [] => .ok true
  | (n, inclusion_proof) :: rest =>
      match challengeIndexFor pp j i n with
      | .error e => .error e
      | .ok challenge_index =>
          match generate_leaf_challenge env pp randomness sector_id
              challenge_index with
          | .error e => .error e
          | .ok challenged_leaf =>
              if inclusion_proof.root ≠ comm_r_last then .ok false
              else if inclusion_proof.expected_len
                  (pp.sector_size / NODE_SIZE) ≠ inclusion_proof.path.length then
                .ok false
              else if inclusion_proof.validate challenged_leaf = false then
                .ok false
              else verifyInclusionProofs env pp randomness j i sector_id
                comm_r_last rest

/-- The loop over the enumerated `(pub_sector, sector_proof)` pairs of one
partition (vanilla.rs:589-665).  Reading `inclusion_proofs[0]` panics on an
empty list; the `comm_r` binding check precedes the inclusion-count check. -/
def verifySectors (env : HashEnv) (pp : PublicParams) (randomness : Dom)
    (j : Nat) : List (Nat × (PublicSector × SectorProof)) →
    Except PoStError Bool
  | [] => .ok true
  | (i, (pub_sector, sector_proof)) :: rest =>
      match sector_proof.inclusion_proofs.head? with
      | none => .error .panicked
      | some first_proof =>
          let comm_r_last := first_proof.root
          if env.hash2 sector_proof.comm_c comm_r_last ≠ pub_sector.comm_r then
            .ok false
          else if pp.challenge_count ≠ sector_proof.inclusion_proofs.length then
            .error .ensureFailure
          else
            match verifyInclusionProofs env pp randomness j i pub_sector.id
                comm_r_last sector_proof.inclusion_proofs.enum with
            | .error e => .error e
            | .ok true => verifySectors env pp randomness j rest
            | .ok false => .ok false

/-- The loop over the enumerated `(proof, pub_sectors_chunk)` pairs
(vanilla.rs:569-666). -/
def verifyPartitions (env : HashEnv) (pp : PublicParams) (randomness : Dom) :
    List (Nat × (Proof × List PublicSector)) → Except PoStError Bool
  | [] => .ok true
  | (j, (proof, pub_sectors_chunk)) :: rest =>
      if ¬ (pub_sectors_chunk.length ≤ pp.sector_count) then
        .error .ensureFailure
      else if proof.sectors.length ≠ pp.sector_count then
        .error .ensureFailure
      else
        match verifySectors env pp randomness j
            ((pub_sectors_chunk.zip proof.sectors).enum) with
        | .error e => .error e
        | .ok true => verifyPartitions env pp randomness rest
        | .ok false => .ok false

/-- `FallbackPoSt::verify_all_partitions`. -/
def verify_all_partitions (env : HashEnv) (pp : PublicParams)
    (pub_inputs : PublicInputs) (partition_proofs : List Proof) :
    Except PoStError Bool :=
  let num_sectors_per_chunk := pp.sector_count
  let num_sectors := pub_inputs.sectors.length
  if ¬ (num_sectors ≤ wmul num_sectors_per_chunk partition_proofs.length) then
    .error .ensureFailure
  else if num_sectors_per_chunk = 0 then
    .error .panicked
  else
    verifyPartitions env pp pub_inputs.randomness
      ((partition_proofs.zip (chunks num_sectors_per_chunk
        pub_inputs.sectors)).enum)

/-! ## satisfies_requirements -/

/-- `FallbackPoSt::satisfies_requirements` (vanilla.rs:670-687): the two
`assert_eq!` calls panic when either multiplication overflows `usize`. -/
def satisfies_requirements (pp : PublicParams) (req : ChallengeRequirements)
    (partitions : Nat) : Except PoStError Bool :=
  let checked := wmul partitions pp.sector_count
  if checked_mul partitions pp.sector_count ≠ some checked then
    .error .panicked
  else if checked_mul checked pp.challenge_count
      ≠ some (wmul checked pp.challenge_count) then
    .error .panicked
  else
    .ok (decide (req.minimum_challenge_count ≤ wmul checked pp.challenge_count))

/-! ## Predicates used by the claims -/

/-- A sector pair on which the tree collaborator honours its contract and the
commitments bind: every tree query succeeds and yields a proof that validates
at the queried leaf, roots to the private `comm_r_last`, and has a path of the
expected length; and the public `comm_r` is `hash2(comm_c, comm_r_last)`. -/
def goodSectorPair (env : HashEnv) (pp : PublicParams)
    (pub_sector : PublicSector) (priv_sector : PrivateSector) : Prop :=
  pub_sector.comm_r
      = env.hash2 priv_sector.comm_c priv_sector.comm_r_last ∧
  ∀ leaf rows, ∃ p,
    priv_sector.tree.gen_cached_proof leaf rows = .ok p ∧
    p.root = priv_sector.comm_r_last ∧
    p.validate leaf = true ∧
    p.path.length = p.expected_len (pp.sector_size / NODE_SIZE)

/-- The prover's preconditions together with the basic well-formedness a call
needs in order not to panic: consistent sector counts, positive
`sector_size / NODE_SIZE` (the leaf-challenge modulus), positive
challenge and sector counts, `usize`-representable capacity products, and the
shape-specific `ensure!` conditions of `prove_all_partitions`. -/
def validCall (pp : PublicParams) (pub_inputs : PublicInputs)
    (priv_inputs : PrivateInputs) (partition_count : Nat) : Prop :=
  priv_inputs.sectors.length = pub_inputs.sectors.length ∧
  0 < pp.sector_size / NODE_SIZE ∧
  0 < pp.challenge_count ∧
  0 < pp.sector_count ∧
  pp.sector_count < USIZE ∧
  match pp.shape with
  | .Window =>
      pub_inputs.sectors.length ≤ partition_count * pp.sector_count ∧
      partition_count * pp.sector_count < USIZE
  | .Winning =>
      pub_inputs.sectors.length = pp.sector_count ∧ pp.challenge_count = 1

/-- The Window prover's fault classification of one challenge `n` of a
sector: its tree call fails, or the returned proof does not validate, or its
root differs from `comm_r_last`, or the public `comm_r` differs from
`hash2(comm_c, comm_r_last)`. -/
def challengeFaulty (env : HashEnv) (pp : PublicParams) (randomness : Dom)
    (pub_sector : PublicSector) (priv_sector : PrivateSector) (n : Nat) :
    Bool :=
  match priv_sector.tree.gen_cached_proof
      (leafChalVal env pp randomness pub_sector.id n)
      (some (env.rowsToDiscard priv_sector.tree.leafs env.arity)) with
  | .error _ => true
  | .ok p =>
      !(p.validate (leafChalVal env pp randomness pub_sector.id n)
        && decide (p.root = priv_sector.comm_r_last)
        && decide (pub_sector.comm_r
            = env.hash2 priv_sector.comm_c priv_sector.comm_r_last))

/-- The Window prover's per-sector fault classification: some challenge of
the sector fails the per-challenge check. -/
def windowSectorFaulty (env : HashEnv) (pp : PublicParams) (randomness : Dom)
    (pub_sector : PublicSector) (priv_sector : PrivateSector) : Bool :=
  (List.range pp.challenge_count).any
    (challengeFaulty env pp randomness pub_sector priv_sector)

/-- The cryptographic checks the Window verifier runs against one examined
`(pub_sector, sector_proof)` pair: the `comm_r` binding, and per inclusion
proof the root equality, the path-length equality and the validation at the
recomputed challenged leaf. -/
def sectorChecks (env : HashEnv) (pp : PublicParams) (randomness : Dom)
    (pub_sector : PublicSector) (sector_proof : SectorProof) : Bool :=
  match sector_proof.inclusion_proofs.head? with
  | none => false
  | some first_proof =>
      decide (env.hash2 sector_proof.comm_c first_proof.root
          = pub_sector.comm_r) &&
      sector_proof.inclusion_proofs.enum.all fun q =>
        decide (q.2.root = first_proof.root) &&
        decide (q.2.expected_len (pp.sector_size / NODE_SIZE)
            = q.2.path.length) &&
        q.2.validate (leafChalVal env pp randomness pub_sector.id q.1)

/-- The `SectorProof` the Winning prover appends for an accepted challenge
`c`: a single inclusion proof (the tree's answer at `c`) together with the
private sector's commitments.  The `error` branch is never taken on a
successful call. -/
def winningAccepted (priv_sector : PrivateSector) (rows_to_discard : Nat)
    (c : Nat) : SectorProof :=
  match priv_sector.tree.gen_cached_proof c (some rows_to_discard) with
  | .ok p => ⟨[p], priv_sector.comm_c, priv_sector.comm_r_last⟩
  | .error _ => ⟨[], priv_sector.comm_c, priv_sector.comm_r_last⟩

/-- The structural conditions the verifier enforces with `ensure!` on one
examined `(proof, pub_sectors_chunk)` pair. -/
def partitionStructOk (pp : PublicParams) (proof : Proof)
    (pub_sectors_chunk : List PublicSector) : Prop :=
  proof.sectors.length = pp.sector_count ∧
  ∀ q ∈ pub_sectors_chunk.zip proof.sectors,
    q.2.inclusion_proofs.length = pp.challenge_count

instance (pp : PublicParams) (proof : Proof)
    (pub_sectors_chunk : List PublicSector) :
    Decidable (partitionStructOk pp proof pub_sectors_chunk) := by
  unfold partitionStructOk
  infer_instance

/-- The overall Window verification verdict: all cryptographic checks over all
examined pairs. -/
def verifyVerdict (env : HashEnv) (pp : PublicParams) (randomness : Dom)
    (partition_proofs : List Proof) (sectors : List PublicSector) : Bool :=
  (partition_proofs.zip (chunks pp.sector_count sectors)).all fun pc =>
    (pc.2.zip pc.1.sectors).all fun q =>
      sectorChecks env pp randomness q.1 q.2

instance (pp : PublicParams) (pub_inputs : PublicInputs)
    (priv_inputs : PrivateInputs) (partition_count : Nat) :
    Decidable (validCall pp pub_inputs priv_inputs partition_count) := by
  unfold validCall
  cases pp.shape <;> infer_instance

/-- The inclusion proof the tree yields for challenge `n` of a Window sector
(total by defaulting; on a `goodSectorPair` the tree call always succeeds). -/
def windowProofAt (env : HashEnv) (pp : PublicParams) (randomness : Dom)
    (pub_sector : PublicSector) (priv_sector : PrivateSector) (n : Nat) :
    MerkleProofM :=
  match priv_sector.tree.gen_cached_proof
      (leafChalVal env pp randomness pub_sector.id n)
      (some (env.rowsToDiscard priv_sector.tree.leafs env.arity)) with
  | .ok p => p
  | .error _ => default

/-- The `SectorProof` the Window prover produces for one good sector. -/
def windowSectorProofOf (env : HashEnv) (pp : PublicParams) (randomness : Dom)
    (q : PublicSector × PrivateSector) : SectorProof :=
  ⟨(List.range pp.challenge_count).map (windowProofAt env pp randomness
      q.1 q.2),
    q.2.comm_c, q.2.comm_r_last⟩

/-- The partition proof the Window prover produces for one chunk of good
sectors: the per-sector proofs padded with copies of the last one. -/
def windowPartitionProofOf (env : HashEnv) (pp : PublicParams)
    (randomness : Dom) (cp : List PublicSector × List PrivateSector) :
    Proof :=
  ⟨(cp.1.zip cp.2).map (windowSectorProofOf env pp randomness) ++
    List.replicate
      (pp.sector_count - (cp.1.zip cp.2).length)
      (((cp.1.zip cp.2).map (windowSectorProofOf env pp randomness)
        ).getLast?.getD default)⟩

/-! ## Concrete instances (used by witnesses and counterexamples) -/

/-- A concrete hash environment: collaborators are opaque to the engine, so
any computable instantiation exercises it. -/
def env0 : HashEnv :=
  { sha256 := fun _ => List.replicate 32 0
    hash2 := fun a b => 1 :: (a ++ b)
    rowsToDiscard := fun _ _ => 0
    arity := 8 }

/-- A well-formed inclusion proof with root `r`. -/
def goodProof (r : Dom) : MerkleProofM :=
  { root := r, leaf := [], path := [], validate := fun _ => true,
    expected_len := fun _ => 0 }

/-- A tree that answers every query with `goodProof r`. -/
def goodTree (r : Dom) : TreeHandle :=
  { leafs := 2, gen_cached_proof := fun _ _ => .ok (goodProof r) }

/-- A tree whose `gen_cached_proof` always fails. -/
def badTree : TreeHandle :=
  { leafs := 2, gen_cached_proof := fun _ _ => .error () }

/-- Window parameters: `sector_size` 64 bytes (2 leaves), 2 challenges,
2 sectors per partition. -/
def ppW : PublicParams :=
  { sector_size := 64, challenge_count := 2, sector_count := 2,
    shape := PoStShape.Window }

/-- Three public Window sectors with consistent commitments. -/
def pubW : PublicInputs :=
  { randomness := [5], prover_id := [7]
    sectors := [⟨0, env0.hash2 [3] [0]⟩, ⟨1, env0.hash2 [4] [2]⟩,
      ⟨2, env0.hash2 [6] [9]⟩]
    k := none }

/-- The matching private Window sectors. -/
def privW : PrivateInputs :=
  { sectors := [⟨goodTree [0], [3], [0]⟩, ⟨goodTree [2], [4], [2]⟩,
      ⟨goodTree [9], [6], [9]⟩] }

/-- The partition proofs `prove_all_partitions` produces on the good Window
instance. -/
def provedW : List Proof :=
  match prove_all_partitions env0 ppW pubW privW 2 with
  | .ok l => l
  | .error _ => []

/-- Winning parameters with `sector_count = 2` challenges. -/
def ppN2 : PublicParams :=
  { sector_size := 64, challenge_count := 1, sector_count := 2,
    shape := PoStShape.Winning }

/-- Two distinct public Winning sectors, each with a consistent `comm_r`. -/
def pubN2 : PublicInputs :=
  { randomness := [5], prover_id := [7]
    sectors := [⟨0, env0.hash2 [3] [0]⟩, ⟨1, env0.hash2 [4] [2]⟩]
    k := none }

/-- The matching private sectors; both trees honour their contracts. -/
def privN2 : PrivateInputs :=
  { sectors := [⟨goodTree [0], [3], [0]⟩, ⟨goodTree [2], [4], [2]⟩] }

/-- Like `privN2` but the second (never examined) sector's tree fails. -/
def privN2bad : PrivateInputs :=
  { sectors := [⟨goodTree [0], [3], [0]⟩, ⟨badTree, [4], [2]⟩] }

/-- A Winning instance in which the single sector is repeated, as in the
intended Winning PoSt construction. -/
def pubN : PublicInputs :=
  { randomness := [5], prover_id := [7]
    sectors := List.replicate 2 ⟨0, env0.hash2 [3] [0]⟩
    k := none }

/-- The matching repeated private sector. -/
def privN : PrivateInputs :=
  { sectors := List.replicate 2 ⟨goodTree [0], [3], [0]⟩ }

/-- The partition proofs produced on the repeated-sector Winning instance. -/
def provedN : List Proof :=
  match prove_all_partitions env0 ppN2 pubN privN 1 with
  | .ok l => l
  | .error _ => []

/-- Window parameters with a single challenge and a single sector slot. -/
def pp1 : PublicParams :=
  { sector_size := 64, challenge_count := 1, sector_count := 1,
    shape := PoStShape.Window }

/-- One public sector whose `comm_r` matches no hash. -/
def pub1 : PublicInputs :=
  { randomness := [5], prover_id := [7], sectors := [⟨0, [9, 9]⟩], k := none }

/-- A partition proof whose only sector proof has two inclusion proofs
(count mismatch against `challenge_count = 1`) and a `comm_c` that does not
bind to `pub1`'s `comm_r`. -/
def proofs1 : List Proof :=
  [⟨[⟨[goodProof [0], goodProof [0]], [3], [0]⟩]⟩]

/-- Partition proofs for `ppW`/`pubW` whose sector proofs all have empty
inclusion-proof lists. -/
def emptyProofs : List Proof :=
  [⟨[⟨[], [3], [0]⟩, ⟨[], [4], [2]⟩]⟩, ⟨[⟨[], [6], [9]⟩, ⟨[], [6], [9]⟩]⟩]

/-! ## Helper lemmas: challenge derivation -/

theorem mapM_ok {α β : Type} {f : α → Except PoStError β} {g : α → β}
    (h : ∀ x, f x = .ok (g x)) :
    ∀ l : List α, l.mapM f = .ok (l.map g) := by
  intro l
  induction l with
  | nil => rfl
  | cons x xs ih =>
      simp only [List.mapM_cons, List.map_cons, h x, ih]
      rfl

theorem generate_leaf_challenge_ok (env : HashEnv) (pp : PublicParams)
    (randomness : Dom) (sector_id leaf_challenge_index : Nat)
    (hd : 0 < pp.sector_size / NODE_SIZE) :
    generate_leaf_challenge env pp randomness sector_id leaf_challenge_index
      = .ok (leafChalVal env pp randomness sector_id leaf_challenge_index) := by
  have hne : pp.sector_size / NODE_SIZE ≠ 0 := Nat.pos_iff_ne_zero.mp hd
  simp [generate_leaf_challenge, leafChalVal, Sha256.mk, Sha256State.update,
    Sha256State.finalize, hne, List.append_assoc]

theorem generate_leaf_challenges_ok (env : HashEnv) (pp : PublicParams)
    (randomness : Dom) (sector_id challenge_count : Nat)
    (hd : 0 < pp.sector_size / NODE_SIZE) :
    generate_leaf_challenges env pp randomness sector_id challenge_count
      = .ok ((List.range challenge_count).map
          (leafChalVal env pp randomness sector_id)) :=
  mapM_ok (fun i => generate_leaf_challenge_ok env pp randomness sector_id i hd) _

/-! ## C3 -/

/-- C3: for every public parameters, randomness, sector id and leaf challenge
index, `generate_leaf_challenge` returns the first 8 bytes, read as a
little-endian u64, of `SHA256(randomness || le64(sector_id) ||
le64(leaf_challenge_index))`, reduced modulo `sector_size / NODE_SIZE`
(`leafChallengeSpec` is that computation spelled out on the concatenated
preimage); in particular the prover id is not part of the preimage —
`leafChallengeSpec` takes no `prover_id` at all. -/
theorem generate_leaf_challenge_matches_spec (env : HashEnv)
    (pp : PublicParams) (randomness : Dom)
    (sector_id leaf_challenge_index : Nat) :
    generate_leaf_challenge env pp randomness sector_id leaf_challenge_index
      = leafChallengeSpec env pp randomness sector_id leaf_challenge_index := by
  simp [generate_leaf_challenge, leafChallengeSpec, Sha256.mk,
    Sha256State.update, Sha256State.finalize, List.append_assoc]

/-! ## C6 -/

/-- C6: `generate_sector_challenge` returns the first 8 bytes, read as a
little-endian u64, of `SHA256(prover_id || randomness || le64(n))`, reduced
modulo `sector_set_len` (`sectorChallengeSpec` spells that computation out),
and it fails exactly when `sector_set_len = 0`. -/
theorem generate_sector_challenge_matches_spec (env : HashEnv)
    (randomness : Dom) (n sector_set_len : Nat) (prover_id : Dom) :
    generate_sector_challenge env randomness n sector_set_len prover_id
        = sectorChallengeSpec env randomness n sector_set_len prover_id
    ∧ ((∃ e, generate_sector_challenge env randomness n sector_set_len
          prover_id = .error e) ↔ sector_set_len = 0) := by
  constructor
  · simp [generate_sector_challenge, sectorChallengeSpec, Sha256.mk,
      Sha256State.update, Sha256State.finalize, List.append_assoc]
  · by_cases h : sector_set_len = 0 <;>
      simp [generate_sector_challenge, h]

/-- Witness for C6 at a concrete input: with `sector_set_len = 3` the call
succeeds with the spec value, and the failure condition rules out
`sector_set_len = 0`. -/
theorem generate_sector_challenge_matches_spec_witness :
    generate_sector_challenge env0 [5] 0 3 [7]
        = sectorChallengeSpec env0 [5] 0 3 [7]
    ∧ ¬ (∃ e, generate_sector_challenge env0 [5] 0 3 [7] = .error e) :=
  ⟨(generate_sector_challenge_matches_spec env0 [5] 0 3 [7]).1,
    fun h => by
      exact absurd
        ((generate_sector_challenge_matches_spec env0 [5] 0 3 [7]).2.mp h)
        (by decide)⟩

/-! ## C9 -/

/-- C9: every value `generate_leaf_challenge` returns is strictly below
`sector_size / NODE_SIZE` (= `sector_size / 32`), and for every positive
`sector_set_len` the value `generate_sector_challenge` returns is strictly
below `sector_set_len`. -/
theorem challenge_outputs_in_range :
    (∀ (env : HashEnv) (pp : PublicParams) (randomness : Dom)
        (sector_id leaf_challenge_index v : Nat),
      generate_leaf_challenge env pp randomness sector_id leaf_challenge_index
          = .ok v →
      v < pp.sector_size / NODE_SIZE)
    ∧ (∀ (env : HashEnv) (randomness : Dom) (n sector_set_len : Nat)
        (prover_id : Dom),
      0 < sector_set_len →
      ∃ v, generate_sector_challenge env randomness n sector_set_len prover_id
          = .ok v ∧ v < sector_set_len) := by
  constructor
  · intro env pp randomness sector_id leaf_challenge_index v h
    by_cases hd : pp.sector_size / NODE_SIZE = 0
    · simp [generate_leaf_challenge, hd] at h
    · rw [generate_leaf_challenge_ok env pp randomness sector_id
        leaf_challenge_index (Nat.pos_of_ne_zero hd)] at h
      have hv : leafChalVal env pp randomness sector_id leaf_challenge_index
          = v := Except.ok.inj h
      rw [← hv]
      exact Nat.mod_lt _ (Nat.pos_of_ne_zero hd)
  · intro env randomness n sector_set_len prover_id hpos
    have hne : sector_set_len ≠ 0 := Nat.pos_iff_ne_zero.mp hpos
    refine ⟨readU64LE (env.sha256 ((([] ++ prover_id) ++ randomness) ++ le64 n))
        % sector_set_len, ?_, Nat.mod_lt _ hpos⟩
    simp [generate_sector_challenge, Sha256.mk, Sha256State.update,
      Sha256State.finalize, hne]

/-- Witness for C9 at concrete inputs. -/
theorem challenge_outputs_in_range_witness :
    (0 : Nat) < ppW.sector_size / NODE_SIZE
    ∧ ∃ v, generate_sector_challenge env0 [5] 0 3 [7] = .ok v ∧ v < 3 :=
  ⟨challenge_outputs_in_range.1 env0 ppW [5] 0 0 0 (by decide),
    challenge_outputs_in_range.2 env0 [5] 0 3 [7] (by decide)⟩

/-! ## C8 -/

/-- C8: `satisfies_requirements` returns `true` exactly when
`partitions * sector_count * challenge_count ≥ minimum_challenge_count`, and
reports an abnormal outcome (the `assert_eq!` panics) exactly when either
multiplication overflows the word size. -/
theorem satisfies_requirements_spec (pp : PublicParams)
    (req : ChallengeRequirements) (partitions : Nat) :
    satisfies_requirements pp req partitions
      = if partitions * pp.sector_count < USIZE
            ∧ partitions * pp.sector_count * pp.challenge_count < USIZE
        then .ok (decide (req.minimum_challenge_count
            ≤ partitions * pp.sector_count * pp.challenge_count))
        else .error .panicked := by
  by_cases h1 : partitions * pp.sector_count < USIZE
  · have e1 : partitions * pp.sector_count % USIZE
        = partitions * pp.sector_count := Nat.mod_eq_of_lt h1
    by_cases h2 : partitions * pp.sector_count * pp.challenge_count < USIZE
    · have e2 : partitions * pp.sector_count * pp.challenge_count % USIZE
          = partitions * pp.sector_count * pp.challenge_count :=
        Nat.mod_eq_of_lt h2
      simp [satisfies_requirements, checked_mul, wmul, e1, e2, h1, h2]
    · simp [satisfies_requirements, checked_mul, wmul, e1, h1, h2]
  · simp [satisfies_requirements, checked_mul, wmul, h1]

/-! ## Helper lemmas: chunking -/

theorem chunksGo_nil {α : Type} (n f : Nat) :
    chunksGo n f ([] : List α) = [] := by
  cases f <;> rfl

theorem chunksGo_fuel_congr {α : Type} (n : Nat) (hn : n ≠ 0) :
    ∀ (f1 f2 : Nat) (l : List α), l.length ≤ f1 → l.length ≤ f2 →
      chunksGo n f1 l = chunksGo n f2 l := by
  intro f1
  induction f1 with
  | zero =>
      intro f2 l h1 _
      have hl : l = [] := List.length_eq_zero.mp (Nat.le_zero.mp h1)
      subst hl
      rw [chunksGo_nil, chunksGo_nil]
  | succ g ih =>
      intro f2 l h1 h2
      cases l with
      | nil => rw [chunksGo_nil, chunksGo_nil]
      | cons x xs =>
          cases f2 with
          | zero => simp at h2
          | succ h =>
              show _ :: chunksGo n g _ = _ :: chunksGo n h _
              congr 1
              apply ih
              · simp only [List.length_drop, List.length_cons] at *
                omega
              · simp only [List.length_drop, List.length_cons] at *
                omega

theorem chunks_nil {α : Type} (n : Nat) : chunks n ([] : List α) = [] := rfl

theorem chunks_cons {α : Type} (n : Nat) (hn : n ≠ 0) (l : List α)
    (hl : l ≠ []) : chunks n l = l.take n :: chunks n (l.drop n) := by
  obtain ⟨x, xs, rfl⟩ := List.exists_cons_of_ne_nil hl
  show chunksGo n (xs.length + 1) (x :: xs) = _
  show _ :: chunksGo n xs.length _ = _
  congr 1
  apply chunksGo_fuel_congr n hn
  · simp only [List.length_drop, List.length_cons]
    omega
  · exact le_rfl

theorem chunks_mem_aux {α : Type} (n : Nat) (hn : n ≠ 0) :
    ∀ (N : Nat) (l : List α), l.length ≤ N →
      ∀ c ∈ chunks n l, c ≠ [] ∧ c.length ≤ n := by
  intro N
  induction N with
  | zero =>
      intro l h c hc
      have hl : l = [] := List.length_eq_zero.mp (Nat.le_zero.mp h)
      subst hl
      simp [chunks_nil] at hc
  | succ m ih =>
      intro l h c hc
      cases l with
      | nil => simp [chunks_nil] at hc
      | cons x xs =>
          rw [chunks_cons n hn _ (by simp)] at hc
          rcases List.mem_cons.mp hc with h1 | h1
          · subst h1
            obtain ⟨k, hk⟩ := Nat.exists_eq_succ_of_ne_zero hn
            subst hk
            exact ⟨by simp, List.length_take_le _ _⟩
          · apply ih _ _ c h1
            simp only [List.length_drop, List.length_cons] at *
            omega

theorem chunks_mem {α : Type} (n : Nat) (hn : n ≠ 0) (l : List α) :
    ∀ c ∈ chunks n l, c ≠ [] ∧ c.length ≤ n :=
  chunks_mem_aux n hn l.length l le_rfl

/-! ## C10 -/

/-- C10: whenever the sector proof examined first has an empty
`inclusion_proofs` list, `verify_all_partitions` panics — the model's
`PoStError.panicked`, a distinct outcome from the structural
`PoStError.ensureFailure` that the inclusion-count `ensure!` would produce —
because `inclusion_proofs[0]` is read for `comm_r_last` before the check that
`inclusion_proofs.len()` equals `challenge_count`. -/
theorem verify_panics_on_empty_inclusion_proofs (env : HashEnv)
    (pp : PublicParams) (pub : PublicInputs) (pr : Proof) (rest : List Proof)
    (sp0 : SectorProof)
    (hens : pub.sectors.length ≤ wmul pp.sector_count (pr :: rest).length)
    (hnspc : pp.sector_count ≠ 0)
    (hpub : pub.sectors ≠ [])
    (hlen : pr.sectors.length = pp.sector_count)
    (hhead : pr.sectors.head? = some sp0)
    (hempty : sp0.inclusion_proofs = []) :
    verify_all_partitions env pp pub (pr :: rest) = .error .panicked := by
  obtain ⟨q, qs, hq⟩ := List.exists_cons_of_ne_nil hpub
  cases hsec : pr.sectors with
  | nil => rw [hsec] at hhead; simp at hhead
  | cons sp sps =>
      have hsp : sp = sp0 := by rw [hsec] at hhead; simpa using hhead
      subst hsp
      obtain ⟨m, hm⟩ := Nat.exists_eq_succ_of_ne_zero hnspc
      unfold verify_all_partitions
      rw [if_neg (not_not_intro hens), if_neg hnspc]
      rw [hq, chunks_cons _ hnspc _ (by simp)]
      simp only [List.zip_cons_cons, List.enum, List.enumFrom]
      unfold verifyPartitions
      rw [if_neg (not_not_intro (List.length_take_le _ _)),
        if_neg (not_not_intro hlen)]
      rw [hm, List.take_succ_cons, hsec]
      simp only [List.zip_cons_cons, List.enum, List.enumFrom]
      unfold verifySectors
      simp [hempty]

/-- Witness for C10: on the concrete `emptyProofs` input the verifier
panics. -/
theorem verify_panics_on_empty_inclusion_proofs_witness :
    verify_all_partitions env0 ppW pubW emptyProofs = .error .panicked :=
  verify_panics_on_empty_inclusion_proofs env0 ppW pubW
    ⟨[⟨[], [3], [0]⟩, ⟨[], [4], [2]⟩]⟩ [⟨[⟨[], [6], [9]⟩, ⟨[], [6], [9]⟩]⟩]
    ⟨[], [3], [0]⟩ (by decide) (by decide) (by decide) (by decide)
    rfl rfl

/-! ## Helper lemmas: padding and chunked proving -/

theorem padLastGo_ok : ∀ (k : Nat) (proofs res : List SectorProof),
    padLastGo k proofs = .ok res →
    (k = 0 ∧ res = proofs) ∨
    ∃ last, proofs.getLast? = some last
      ∧ res = proofs ++ List.replicate k last := by
  intro k
  induction k with
  | zero =>
      intro proofs res h
      exact Or.inl ⟨rfl, (Except.ok.inj h).symm⟩
  | succ j ih =>
      intro proofs res h
      right
      cases hL : proofs.getLast? with
      | none => simp [padLastGo, hL] at h
      | some last =>
          have h2 : padLastGo j (proofs ++ [last]) = .ok res := by
            simpa [padLastGo, hL] using h
          rcases ih _ _ h2 with ⟨hj, hres⟩ | ⟨last2, hL2, hres⟩
          · exact ⟨last, rfl, by simp [hres, hj]⟩
          · have hlast2 : last2 = last := by
              rw [List.getLast?_concat] at hL2
              exact (Option.some.inj hL2).symm
            subst hlast2
            exact ⟨last2, rfl, by
              simp [hres, List.append_assoc, List.replicate_succ]⟩

theorem padLast_ok_of_ne_nil (proofs res : List SectorProof) (n : Nat)
    (hne : proofs ≠ []) (h : padLast proofs n = .ok res) :
    ∃ last, proofs.getLast? = some last ∧
      res = proofs ++ List.replicate (n - proofs.length) last := by
  rcases padLastGo_ok _ _ _ h with ⟨hk, hres⟩ | hres
  · cases hL : proofs.getLast? with
    | none => exact absurd (List.getLast?_eq_none_iff.mp hL) hne
    | some last => exact ⟨last, rfl, by rw [hk, hres]; simp⟩
  · exact hres

theorem proveWindowChunk_length (env : HashEnv) (pp : PublicParams)
    (randomness : Dom) :
    ∀ (pairs : List (PublicSector × PrivateSector)) acc faults res,
      proveWindowChunk env pp randomness pairs acc faults = .ok res →
      res.1.length = acc.length + pairs.length := by
  intro pairs
  induction pairs with
  | nil =>
      intro acc faults res h
      have : (acc, faults) = res := Except.ok.inj h
      simp [← this]
  | cons p rest ih =>
      intro acc faults res h
      obtain ⟨pub_sector, priv_sector⟩ := p
      cases hS : proveWindowSector env pp randomness pub_sector priv_sector
          faults with
      | error e => rw [proveWindowChunk, hS] at h; exact absurd h (by simp)
      | ok out =>
          rw [proveWindowChunk, hS] at h
          have := ih _ _ _ h
          simp at this
          simp [this, List.length_append]
          omega

theorem proveWindowPartitions_mem (env : HashEnv) (pp : PublicParams)
    (randomness : Dom) :
    ∀ (cps : List (List PublicSector × List PrivateSector))
      (acc : List Proof) (faults : List Nat) res,
      proveWindowPartitions env pp randomness cps acc faults = .ok res →
      (∀ cp ∈ cps, cp.1.zip cp.2 ≠ ([] : List (PublicSector × PrivateSector))
        ∧ (cp.1.zip cp.2).length ≤ pp.sector_count) →
      ∀ pr ∈ res.1, pr ∈ acc ∨
        (pr.sectors.length = pp.sector_count ∧
          ∃ core last, core.getLast? = some last
            ∧ core.length ≤ pp.sector_count
            ∧ pr.sectors
                = core ++ List.replicate (pp.sector_count - core.length) last) := by
  intro cps
  induction cps with
  | nil =>
      intro acc faults res h _ pr hpr
      have : (acc, faults) = res := Except.ok.inj h
      rw [← this] at hpr
      exact Or.inl hpr
  | cons cp rest ih =>
      intro acc faults res h hcond pr hpr
      obtain ⟨pub_chunk, priv_chunk⟩ := cp
      cases hC : proveWindowChunk env pp randomness (pub_chunk.zip priv_chunk)
          [] faults with
      | error e => rw [proveWindowPartitions, hC] at h; exact absurd h (by simp)
      | ok out =>
          obtain ⟨proofs, faults2⟩ := out
          cases hP : padLast proofs pp.sector_count with
          | error e =>
              rw [proveWindowPartitions, hC] at h
              dsimp only at h
              rw [hP] at h
              exact absurd h (by simp)
          | ok padded =>
              rw [proveWindowPartitions, hC] at h
              dsimp only at h
              rw [hP] at h
              dsimp only at h
              have hlen : proofs.length = (pub_chunk.zip priv_chunk).length := by
                have := proveWindowChunk_length env pp randomness _ _ _ _ hC
                simpa using this
              have hzip := hcond (pub_chunk, priv_chunk) (by simp)
              have hne : proofs ≠ [] := by
                intro hnil
                rw [hnil] at hlen
                exact hzip.1 (List.length_eq_zero.mp hlen.symm)
              obtain ⟨last, hlast, hpadded⟩ :=
                padLast_ok_of_ne_nil proofs padded pp.sector_count hne hP
              rcases ih _ _ _ h (fun cp hcp => hcond cp (by simp [hcp]))
                  pr hpr with hacc | hgood
              · rcases List.mem_append.mp hacc with h1 | h1
                · exact Or.inl h1
                · right
                  have hpr2 : pr = ⟨padded⟩ := by simpa using h1
                  subst hpr2
                  have hcore : proofs.length ≤ pp.sector_count := by
                    rw [hlen]; exact hzip.2
                  constructor
                  · show padded.length = pp.sector_count
                    rw [hpadded]
                    simp [List.length_append, List.length_replicate]
                    omega
                  · exact ⟨proofs, last, hlast, hcore, hpadded⟩
              · exact Or.inr hgood

theorem proveWindowPartitions_padding (env : HashEnv) (pp : PublicParams)
    (randomness : Dom) :
    ∀ (cps : List (List PublicSector × List PrivateSector))
      (acc : List Proof) (faults : List Nat) res,
      proveWindowPartitions env pp randomness cps acc faults = .ok res →
      (∀ cp ∈ cps, cp.1.zip cp.2 ≠ ([] : List (PublicSector × PrivateSector))
        ∧ (cp.1.zip cp.2).length ≤ pp.sector_count) →
      ∃ out, res.1 = acc ++ out ∧ out.length = cps.length ∧
        ∀ q ∈ out.zip cps,
          q.1.sectors.length = pp.sector_count ∧
          ∃ core last, core.getLast? = some last
            ∧ core.length = (q.2.1.zip q.2.2).length
            ∧ q.1.sectors
                = core ++ List.replicate
                    (pp.sector_count - core.length) last := by
  intro cps
  induction cps with
  | nil =>
      intro acc faults res h _
      have : (acc, faults) = res := Except.ok.inj h
      exact ⟨[], by rw [← this]; simp, rfl, by simp⟩
  | cons cp rest ih =>
      intro acc faults res h hcond
      obtain ⟨pub_chunk, priv_chunk⟩ := cp
      cases hC : proveWindowChunk env pp randomness (pub_chunk.zip priv_chunk)
          [] faults with
      | error e => rw [proveWindowPartitions, hC] at h; exact absurd h (by simp)
      | ok out0 =>
          obtain ⟨proofs2, faults2⟩ := out0
          cases hP : padLast proofs2 pp.sector_count with
          | error e =>
              rw [proveWindowPartitions, hC] at h
              dsimp only at h
              rw [hP] at h
              exact absurd h (by simp)
          | ok padded =>
              rw [proveWindowPartitions, hC] at h
              dsimp only at h
              rw [hP] at h
              dsimp only at h
              have hlen : proofs2.length
                  = (pub_chunk.zip priv_chunk).length := by
                have := proveWindowChunk_length env pp randomness _ _ _ _ hC
                simpa using this
              have hzip := hcond (pub_chunk, priv_chunk) (by simp)
              have hne : proofs2 ≠ [] := by
                intro hnil
                rw [hnil] at hlen
                exact hzip.1 (List.length_eq_zero.mp hlen.symm)
              obtain ⟨last, hlast, hpadded⟩ :=
                padLast_ok_of_ne_nil proofs2 padded pp.sector_count hne hP
              obtain ⟨out, hout, hlen2, hq⟩ := ih _ _ _ h
                (fun cp2 hcp2 => hcond cp2 (by simp [hcp2]))
              refine ⟨Proof.mk padded :: out, ?_, ?_, ?_⟩
              · rw [hout]
                simp
              · simp [hlen2]
              · intro q hqm
                rw [List.zip_cons_cons] at hqm
                rcases List.mem_cons.mp hqm with hq1 | hq1
                · subst hq1
                  dsimp only
                  constructor
                  · show padded.length = pp.sector_count
                    rw [hpadded, List.length_append, List.length_replicate]
                    have hcore : proofs2.length ≤ pp.sector_count := by
                      rw [hlen]; exact hzip.2
                    omega
                  · exact ⟨proofs2, last, hlast, hlen, hpadded⟩
                · exact hq q hq1

/-! ## C5 -/

/-- C5: for every successful Window-shape `prove_all_partitions` call, the
returned partition proofs correspond one-to-one with the
`sector_count`-sized chunks of the sector lists, and each proof's `sectors`
is that chunk's own list of sector proofs — exactly as many as the chunk has
sectors — padded by duplicating its *last* element until the length equals
`sector_count`; in particular every partition proof has exactly
`sector_count` sector proofs, and a short last chunk is padded with copies
of its last sector proof. -/
theorem prove_window_padding (env : HashEnv) (pp : PublicParams)
    (pub_inputs : PublicInputs) (priv_inputs : PrivateInputs)
    (partition_count : Nat) (proofs : List Proof)
    (hshape : pp.shape = PoStShape.Window)
    (hok : prove_all_partitions env pp pub_inputs priv_inputs partition_count
        = .ok proofs) :
    proofs.length = ((chunks pp.sector_count pub_inputs.sectors).zip
        (chunks pp.sector_count priv_inputs.sectors)).length
    ∧ ∀ q ∈ proofs.zip ((chunks pp.sector_count pub_inputs.sectors).zip
        (chunks pp.sector_count priv_inputs.sectors)),
      q.1.sectors.length = pp.sector_count ∧
      ∃ core last, core.getLast? = some last
        ∧ core.length = (q.2.1.zip q.2.2).length
        ∧ q.1.sectors
            = core ++ List.replicate (pp.sector_count - core.length) last := by
  by_cases hL : priv_inputs.sectors.length ≠ pub_inputs.sectors.length
  · simp [prove_all_partitions, hL] at hok
  · rw [prove_all_partitions, if_neg hL] at hok
    cases hB : proveBody env pp pub_inputs priv_inputs partition_count with
    | error e => rw [hB] at hok; exact absurd hok (by simp)
    | ok out0 =>
        obtain ⟨prs, faults⟩ := out0
        rw [hB] at hok
        dsimp only at hok
        by_cases hF : faults.isEmpty
        · rw [if_pos hF] at hok
          have hprs : prs = proofs := Except.ok.inj hok
          subst hprs
          rw [proveBody, hshape] at hB
          by_cases h1 : ¬ (pub_inputs.sectors.length
              ≤ wmul partition_count pp.sector_count)
          · rw [if_pos h1] at hB; exact absurd hB (by simp)
          · rw [if_neg h1] at hB
            by_cases h2 : pp.sector_count = 0
            · rw [if_pos h2] at hB; exact absurd hB (by simp)
            · rw [if_neg h2] at hB
              obtain ⟨out, hout, hlenout, hq⟩ :=
                proveWindowPartitions_padding env pp pub_inputs.randomness
                  _ _ _ _ hB (by
                    intro cp hcp
                    have hmem := List.of_mem_zip hcp
                    have hc1 := chunks_mem _ h2 pub_inputs.sectors _ hmem.1
                    have hc2 := chunks_mem _ h2 priv_inputs.sectors _ hmem.2
                    constructor
                    · have h3 : 0 < (cp.1.zip cp.2).length := by
                        rw [List.length_zip]
                        rcases List.exists_cons_of_ne_nil hc1.1
                          with ⟨a, as, ha⟩
                        rcases List.exists_cons_of_ne_nil hc2.1
                          with ⟨b, bs, hb⟩
                        simp [ha, hb]
                      intro hnil
                      rw [hnil] at h3
                      simp at h3
                    · rw [List.length_zip]
                      exact le_trans (Nat.min_le_left _ _) hc1.2)
              dsimp only at hout
              rw [List.nil_append] at hout
              rw [hout]
              exact ⟨hlenout, hq⟩
        · rw [if_neg hF] at hok; exact absurd hok (by simp)

/-- Witness for C5: the padded Window instance (3 sectors in chunks of 2; the
second partition is a short one-sector chunk whose single sector proof is
duplicated once). -/
theorem prove_window_padding_witness :
    ppW.shape = PoStShape.Window ∧
    (provedW.length = ((chunks ppW.sector_count pubW.sectors).zip
        (chunks ppW.sector_count privW.sectors)).length
    ∧ ∀ q ∈ provedW.zip ((chunks ppW.sector_count pubW.sectors).zip
        (chunks ppW.sector_count privW.sectors)),
      q.1.sectors.length = ppW.sector_count ∧
      ∃ core last, core.getLast? = some last
        ∧ core.length = (q.2.1.zip q.2.2).length
        ∧ q.1.sectors
            = core ++ List.replicate (ppW.sector_count - core.length) last) :=
  ⟨rfl, prove_window_padding env0 ppW pubW privW 2 provedW rfl rfl⟩

/-! ## Helper lemmas: fault set and Winning challenges -/

theorem btreeInsert_ne_nil (x : Nat) (l : List Nat) :
    btreeInsert x l ≠ [] := by
  cases l with
  | nil => simp [btreeInsert]
  | cons y ys =>
      simp only [btreeInsert]
      split
      · simp
      · split <;> simp

theorem mapM_length {α β : Type} {f : α → Except PoStError β} :
    ∀ (l : List α) (out : List β), l.mapM f = .ok out →
      out.length = l.length := by
  intro l
  induction l with
  | nil =>
      intro out h
      simp only [List.mapM_nil] at h
      have : [] = out := Except.ok.inj (by exact h)
      simp [← this]
  | cons x xs ih =>
      intro out h
      simp only [List.mapM_cons] at h
      cases hx : f x with
      | error e => rw [hx] at h; exact absurd h (by simp [Bind.bind, Except.bind])
      | ok y =>
          rw [hx] at h
          cases hxs : xs.mapM f with
          | error e =>
              rw [hxs] at h
              exact absurd h (by simp [Bind.bind, Except.bind])
          | ok ys =>
              rw [hxs] at h
              have : y :: ys = out := by
                simpa [Bind.bind, Except.bind, Pure.pure, Except.pure] using h
              rw [← this]
              simp [ih ys hxs]

theorem proveWinningChallenges_faults_ne_nil (env : HashEnv)
    (pub_sector : PublicSector) (priv_sector : PrivateSector)
    (rows_to_discard : Nat) :
    ∀ (cs : List Nat) (proofs : List SectorProof) (faults : List Nat),
      faults ≠ [] →
      (proveWinningChallenges env pub_sector priv_sector rows_to_discard cs
        proofs faults).2 ≠ [] := by
  intro cs
  induction cs with
  | nil => intro proofs faults h; exact h
  | cons c rest ih =>
      intro proofs faults h
      rw [proveWinningChallenges]
      cases hg : priv_sector.tree.gen_cached_proof c (some rows_to_discard) with
      | error e => exact ih _ _ (btreeInsert_ne_nil _ _)
      | ok p =>
          dsimp only
          split
          · exact ih _ _ h
          · exact ih _ _ (btreeInsert_ne_nil _ _)

theorem proveWinningChallenges_all_accepted (env : HashEnv)
    (pub_sector : PublicSector) (priv_sector : PrivateSector)
    (rows_to_discard : Nat) :
    ∀ (cs : List Nat) (proofs : List SectorProof) (faults : List Nat),
      (proveWinningChallenges env pub_sector priv_sector rows_to_discard cs
        proofs faults).2 = [] →
      faults = [] ∧
      (proveWinningChallenges env pub_sector priv_sector rows_to_discard cs
          proofs faults).1
        = proofs ++ cs.map (winningAccepted priv_sector rows_to_discard) ∧
      ∀ c ∈ cs, ∃ p,
        priv_sector.tree.gen_cached_proof c (some rows_to_discard) = .ok p ∧
        (p.validate c && decide (p.root = priv_sector.comm_r_last)
          && decide (pub_sector.comm_r
              = env.hash2 priv_sector.comm_c priv_sector.comm_r_last))
          = true := by
  intro cs
  induction cs with
  | nil =>
      intro proofs faults h
      exact ⟨h, by simp [proveWinningChallenges], by simp⟩
  | cons c rest ih =>
      intro proofs faults h
      rw [proveWinningChallenges] at h ⊢
      cases hg : priv_sector.tree.gen_cached_proof c (some rows_to_discard) with
      | error e =>
          rw [hg] at h
          dsimp only at h
          exact absurd h (proveWinningChallenges_faults_ne_nil _ _ _ _ _ _ _
            (btreeInsert_ne_nil _ _))
      | ok p =>
          rw [hg] at h
          dsimp only at h
          dsimp only
          by_cases hcond : (p.validate c
              && decide (p.root = priv_sector.comm_r_last)
              && decide (pub_sector.comm_r
                  = env.hash2 priv_sector.comm_c priv_sector.comm_r_last))
              = true
          · rw [if_pos hcond] at h ⊢
            obtain ⟨hf, hout, hall⟩ := ih _ _ h
            refine ⟨hf, ?_, ?_⟩
            · rw [hout]
              simp [winningAccepted, hg]
            · intro c2 hc2
              rcases List.mem_cons.mp hc2 with h1 | h1
              · subst h1; exact ⟨p, hg, hcond⟩
              · exact hall c2 h1
          · rw [if_neg hcond] at h
            exact absurd h (proveWinningChallenges_faults_ne_nil _ _ _ _ _ _ _
              (btreeInsert_ne_nil _ _))

/-! ## C7 -/

/-- C7: every successful Winning-shape `prove_all_partitions` call (which
requires `pub.sectors.length = sector_count > 0`, equal public and private
sector counts, and `challenge_count = 1`) returns a one-element partition
list whose single proof has exactly one `SectorProof` per derived leaf
challenge of sector `pub.sectors[0]` — `sector_count` of them — each holding
exactly one inclusion proof. -/
theorem prove_winning_shape (env : HashEnv) (pp : PublicParams)
    (pub_inputs : PublicInputs) (priv_inputs : PrivateInputs)
    (partition_count : Nat) (proofs : List Proof)
    (hshape : pp.shape = PoStShape.Winning)
    (hok : prove_all_partitions env pp pub_inputs priv_inputs partition_count
        = .ok proofs) :
    pub_inputs.sectors.length = pp.sector_count ∧ 0 < pp.sector_count ∧
    pp.challenge_count = 1 ∧
    priv_inputs.sectors.length = pub_inputs.sectors.length ∧
    ∃ pub0 priv0 challenges,
      pub_inputs.sectors.head? = some pub0 ∧
      priv_inputs.sectors.head? = some priv0 ∧
      generate_leaf_challenges env pp pub_inputs.randomness pub0.id
          pp.sector_count = .ok challenges ∧
      challenges.length = pp.sector_count ∧
      proofs = [⟨challenges.map (winningAccepted priv0
        (env.rowsToDiscard priv0.tree.leafs env.arity))⟩] ∧
      ∀ pr ∈ proofs, pr.sectors.length = pp.sector_count ∧
        ∀ sp ∈ pr.sectors, sp.inclusion_proofs.length = 1 := by
  by_cases hL : priv_inputs.sectors.length ≠ pub_inputs.sectors.length
  · simp [prove_all_partitions, hL] at hok
  · rw [prove_all_partitions, if_neg hL] at hok
    cases hB : proveBody env pp pub_inputs priv_inputs partition_count with
    | error e => rw [hB] at hok; exact absurd hok (by simp)
    | ok out =>
        obtain ⟨prs, faults⟩ := out
        rw [hB] at hok
        dsimp only at hok
        by_cases hF : faults.isEmpty
        · rw [if_pos hF] at hok
          have hprs : prs = proofs := Except.ok.inj hok
          subst hprs
          rw [proveBody, hshape] at hB
          by_cases h1 : pub_inputs.sectors.length = pp.sector_count
              ∧ 0 < pp.sector_count
          · rw [if_neg (not_not_intro h1)] at hB
            rw [if_neg hL] at hB
            by_cases h2 : pp.challenge_count ≠ 1
            · rw [if_pos h2] at hB; exact absurd hB (by simp)
            · rw [if_neg h2] at hB
              push_neg at h2
              push_neg at hL
              have hpubne : pub_inputs.sectors ≠ [] := by
                intro hnil
                rw [hnil] at h1
                simp at h1
                omega
              obtain ⟨pub0, pubRest, hpub⟩ :=
                List.exists_cons_of_ne_nil hpubne
              have hprivne : priv_inputs.sectors ≠ [] := by
                intro hnil
                rw [hnil, hpub] at hL
                simp at hL
              obtain ⟨priv0, privRest, hpriv⟩ :=
                List.exists_cons_of_ne_nil hprivne
              rw [hpub, hpriv] at hB
              dsimp only at hB
              cases hch : generate_leaf_challenges env pp
                  pub_inputs.randomness pub0.id pp.sector_count with
              | error e => rw [hch] at hB; exact absurd hB (by simp)
              | ok challenges =>
                  rw [hch] at hB
                  dsimp only at hB
                  have hpair := Except.ok.inj hB
                  have hfe : faults = [] := List.isEmpty_iff.mp hF
                  have hfaults2 : (proveWinningChallenges env pub0
                      priv0 (env.rowsToDiscard priv0.tree.leafs
                        env.arity) challenges [] []).2 = [] := by
                    have hsnd := congrArg Prod.snd hpair
                    dsimp at hsnd
                    rw [hsnd]
                    exact hfe
                  obtain ⟨_, hout, hall⟩ :=
                    proveWinningChallenges_all_accepted env pub0 priv0
                      _ challenges [] [] hfaults2
                  have hproofs : prs = [⟨challenges.map
                      (winningAccepted priv0 (env.rowsToDiscard
                        priv0.tree.leafs env.arity))⟩] := by
                    have := congrArg Prod.fst hpair
                    dsimp at this
                    rw [← this, hout]
                    simp
                  have hchlen : challenges.length = pp.sector_count := by
                    have := mapM_length _ _ hch
                    simpa using this
                  refine ⟨h1.1, h1.2, h2, hL,
                    pub0, priv0, challenges, by simp [hpub],
                    by simp [hpriv], hch, hchlen, hproofs, ?_⟩
                  intro pr hpr
                  rw [hproofs] at hpr
                  have hpr2 : pr = ⟨challenges.map (winningAccepted
                      priv0 (env.rowsToDiscard priv0.tree.leafs
                        env.arity))⟩ := by simpa using hpr
                  subst hpr2
                  constructor
                  · simp [hchlen]
                  · intro sp hsp
                    simp only [List.mem_map] at hsp
                    obtain ⟨c, hc, hsp2⟩ := hsp
                    obtain ⟨p, hg, _⟩ := hall c hc
                    rw [← hsp2]
                    simp [winningAccepted, hg]
          · rw [if_pos h1] at hB; exact absurd hB (by simp)
        · rw [if_neg hF] at hok; exact absurd hok (by simp)

/-- Witness for C7: the repeated-sector Winning instance with two
challenges. -/
theorem prove_winning_shape_witness :
    ppN2.shape = PoStShape.Winning ∧
    (pubN.sectors.length = ppN2.sector_count ∧ 0 < ppN2.sector_count ∧
      ppN2.challenge_count = 1 ∧
      privN.sectors.length = pubN.sectors.length ∧
      ∃ pub0 priv0 challenges,
        pubN.sectors.head? = some pub0 ∧
        privN.sectors.head? = some priv0 ∧
        generate_leaf_challenges env0 ppN2 pubN.randomness pub0.id
            ppN2.sector_count = .ok challenges ∧
        challenges.length = ppN2.sector_count ∧
        provedN = [⟨challenges.map (winningAccepted priv0
          (env0.rowsToDiscard priv0.tree.leafs env0.arity))⟩] ∧
        ∀ pr ∈ provedN, pr.sectors.length = ppN2.sector_count ∧
          ∀ sp ∈ pr.sectors, sp.inclusion_proofs.length = 1) :=
  ⟨rfl, prove_winning_shape env0 ppN2 pubN privN 1 provedN rfl rfl⟩

/-! ## Helper lemmas: the ordered fault set -/

theorem mem_btreeInsert (x y : Nat) :
    ∀ l : List Nat, x ∈ btreeInsert y l ↔ x = y ∨ x ∈ l := by
  intro l
  induction l with
  | nil => simp [btreeInsert]
  | cons z zs ih =>
      simp only [btreeInsert]
      split
      · simp [List.mem_cons]
      · split
        · rename_i h1 h2
          subst h2
          simp [List.mem_cons]
        · simp only [List.mem_cons, ih]
          tauto

theorem btreeInsert_pairwise (y : Nat) :
    ∀ l : List Nat, List.Pairwise (· < ·) l →
      List.Pairwise (· < ·) (btreeInsert y l) := by
  intro l
  induction l with
  | nil => simp [btreeInsert]
  | cons z zs ih =>
      intro h
      rw [List.pairwise_cons] at h
      obtain ⟨hz, hzs⟩ := h
      simp only [btreeInsert]
      split
      · rename_i h1
        rw [List.pairwise_cons]
        refine ⟨?_, List.pairwise_cons.mpr ⟨hz, hzs⟩⟩
        intro w hw
        rcases List.mem_cons.mp hw with h2 | h2
        · rw [h2]; exact h1
        · exact lt_trans h1 (hz w h2)
      · split
        · exact List.pairwise_cons.mpr ⟨hz, hzs⟩
        · rename_i h1 h2
          have hzy : z < y := by omega
          rw [List.pairwise_cons]
          refine ⟨?_, ih hzs⟩
          intro w hw
          rcases (mem_btreeInsert w y zs).mp hw with h3 | h3
          · rw [h3]; exact hzy
          · exact hz w h3

theorem collectResults_snd_mem (x : Nat) :
    ∀ (results : List ProofOrFault) (acc : List MerkleProofM)
      (faults : List Nat),
      x ∈ (collectResults results acc faults).2 ↔
        x ∈ faults ∨ ∃ r ∈ results, r = ProofOrFault.fault x := by
  intro results
  induction results with
  | nil => intro acc faults; simp [collectResults]
  | cons r rest ih =>
      intro acc faults
      cases r with
      | proof p =>
          rw [collectResults, ih]
          simp
      | fault sid =>
          rw [collectResults, ih]
          simp only [mem_btreeInsert, List.mem_cons]
          constructor
          · rintro (⟨h | h⟩ | ⟨r2, hr2, hf⟩)
            · exact Or.inr ⟨.fault sid, Or.inl rfl, by rw [h]⟩
            · exact Or.inl h
            · exact Or.inr ⟨r2, Or.inr hr2, hf⟩
          · rintro (h | ⟨r2, hr2 | hr2, hf⟩)
            · exact Or.inl (Or.inr h)
            · rw [hr2] at hf
              exact Or.inl (Or.inl (ProofOrFault.fault.inj hf).symm)
            · exact Or.inr ⟨r2, hr2, hf⟩

theorem collectResults_snd_pairwise :
    ∀ (results : List ProofOrFault) (acc : List MerkleProofM)
      (faults : List Nat),
      List.Pairwise (· < ·) faults →
      List.Pairwise (· < ·) (collectResults results acc faults).2 := by
  intro results
  induction results with
  | nil => intro acc faults h; exact h
  | cons r rest ih =>
      intro acc faults h
      cases r with
      | proof p => exact ih _ _ h
      | fault sid => exact ih _ _ (btreeInsert_pairwise sid _ h)

/-! ## Helper lemmas: Window fault classification -/

theorem getD_map_range (f : Nat → Nat) (cc n : Nat) (hn : n < cc) :
    ((List.range cc).map f).getD n 0 = f n := by
  rw [List.getD_eq_getElem?_getD]
  simp [List.getElem?_range hn]

theorem windowChallengeResult_fault_iff (env : HashEnv) (pp : PublicParams)
    (randomness : Dom) (pub_sector : PublicSector)
    (priv_sector : PrivateSector) (n x : Nat)
    (hn : n < pp.challenge_count) :
    (windowChallengeResult env pub_sector priv_sector
        (env.rowsToDiscard priv_sector.tree.leafs env.arity)
        ((List.range pp.challenge_count).map
          (leafChalVal env pp randomness pub_sector.id)) n
      = ProofOrFault.fault x)
    ↔ (x = pub_sector.id
        ∧ challengeFaulty env pp randomness pub_sector priv_sector n = true)
    := by
  unfold windowChallengeResult challengeFaulty
  rw [getD_map_range _ _ _ hn]
  dsimp only
  cases hg : priv_sector.tree.gen_cached_proof
      (leafChalVal env pp randomness pub_sector.id n)
      (some (env.rowsToDiscard priv_sector.tree.leafs env.arity)) with
  | error e =>
      dsimp only
      simp [eq_comm]
  | ok p =>
      dsimp only
      by_cases hcond : (p.validate
            (leafChalVal env pp randomness pub_sector.id n)
          && decide (p.root = priv_sector.comm_r_last)
          && decide (pub_sector.comm_r
              = env.hash2 priv_sector.comm_c priv_sector.comm_r_last)) = true
      · rw [if_pos hcond]
        simp [hcond]
      · rw [if_neg hcond]
        have hcond2 : (p.validate
              (leafChalVal env pp randomness pub_sector.id n)
            && decide (p.root = priv_sector.comm_r_last)
            && decide (pub_sector.comm_r
                = env.hash2 priv_sector.comm_c priv_sector.comm_r_last))
            = false := by simpa using hcond
        simp [hcond2, eq_comm]

theorem proveWindowSector_spec (env : HashEnv) (pp : PublicParams)
    (randomness : Dom) (pub_sector : PublicSector)
    (priv_sector : PrivateSector) (faults : List Nat)
    (hdiv : 0 < pp.sector_size / NODE_SIZE) :
    ∃ sp faults2,
      proveWindowSector env pp randomness pub_sector priv_sector faults
        = .ok (sp, faults2) ∧
      (∀ x, x ∈ faults2 ↔ x ∈ faults ∨
        (x = pub_sector.id
          ∧ windowSectorFaulty env pp randomness pub_sector priv_sector
              = true)) ∧
      (List.Pairwise (· < ·) faults → List.Pairwise (· < ·) faults2) := by
  unfold proveWindowSector
  rw [generate_leaf_challenges_ok env pp randomness pub_sector.id
    pp.challenge_count hdiv]
  dsimp only
  refine ⟨_, _, rfl, ?_, ?_⟩
  · intro x
    rw [collectResults_snd_mem]
    constructor
    · rintro (h | ⟨r, hr, hf⟩)
      · exact Or.inl h
      · right
        obtain ⟨n, hn, hres⟩ := List.mem_map.mp hr
        rw [← hres] at hf
        have := (windowChallengeResult_fault_iff env pp randomness pub_sector
          priv_sector n x (List.mem_range.mp hn)).mp hf
        refine ⟨this.1, ?_⟩
        unfold windowSectorFaulty
        rw [List.any_eq_true]
        exact ⟨n, hn, this.2⟩
    · rintro (h | ⟨hx, hfaulty⟩)
      · exact Or.inl h
      · right
        unfold windowSectorFaulty at hfaulty
        rw [List.any_eq_true] at hfaulty
        obtain ⟨n, hn, hf⟩ := hfaulty
        refine ⟨windowChallengeResult env pub_sector priv_sector
          (env.rowsToDiscard priv_sector.tree.leafs env.arity)
          ((List.range pp.challenge_count).map
            (leafChalVal env pp randomness pub_sector.id)) n,
          List.mem_map_of_mem _ hn, ?_⟩
        exact (windowChallengeResult_fault_iff env pp randomness pub_sector
          priv_sector n x (List.mem_range.mp hn)).mpr ⟨hx, hf⟩
  · intro hp
    exact collectResults_snd_pairwise _ _ _ hp

theorem proveWindowChunk_spec (env : HashEnv) (pp : PublicParams)
    (randomness : Dom) (hdiv : 0 < pp.sector_size / NODE_SIZE) :
    ∀ (pairs : List (PublicSector × PrivateSector)) acc faults,
      ∃ sps faults2,
        proveWindowChunk env pp randomness pairs acc faults
          = .ok (sps, faults2) ∧
        (∀ x, x ∈ faults2 ↔ x ∈ faults ∨ ∃ q ∈ pairs,
          x = q.1.id
            ∧ windowSectorFaulty env pp randomness q.1 q.2 = true) ∧
        (List.Pairwise (· < ·) faults → List.Pairwise (· < ·) faults2) := by
  intro pairs
  induction pairs with
  | nil =>
      intro acc faults
      exact ⟨acc, faults, rfl, by simp, fun h => h⟩
  | cons q rest ih =>
      intro acc faults
      obtain ⟨ps, vs⟩ := q
      obtain ⟨sp, f2, hsec, hmem, hpw⟩ :=
        proveWindowSector_spec env pp randomness ps vs faults hdiv
      obtain ⟨sps, f3, hrec, hmem3, hpw3⟩ := ih (acc ++ [sp]) f2
      refine ⟨sps, f3, ?_, ?_, fun h => hpw3 (hpw h)⟩
      · rw [proveWindowChunk, hsec]
        exact hrec
      · intro x
        rw [hmem3 x, hmem x]
        constructor
        · rintro ((h | ⟨hx, hf⟩) | ⟨q2, hq2, hf2⟩)
          · exact Or.inl h
          · exact Or.inr ⟨(ps, vs), List.mem_cons_self _ _, hx, hf⟩
          · exact Or.inr ⟨q2, List.mem_cons_of_mem _ hq2, hf2⟩
        · rintro (h | ⟨q2, hq2, hf2⟩)
          · exact Or.inl (Or.inl h)
          · rcases List.mem_cons.mp hq2 with h1 | h1
            · subst h1
              exact Or.inl (Or.inr hf2)
            · exact Or.inr ⟨q2, h1, hf2⟩

theorem padLastGo_total :
    ∀ (k : Nat) (proofs : List SectorProof), proofs ≠ [] →
      ∃ res, padLastGo k proofs = .ok res := by
  intro k
  induction k with
  | zero => intro proofs h; exact ⟨proofs, rfl⟩
  | succ j ih =>
      intro proofs h
      cases hL : proofs.getLast? with
      | none => exact absurd (List.getLast?_eq_none_iff.mp hL) h
      | some last =>
          obtain ⟨res, hres⟩ := ih (proofs ++ [last]) (by simp)
          exact ⟨res, by rw [padLastGo, hL]; exact hres⟩

theorem proveWindowPartitions_spec (env : HashEnv) (pp : PublicParams)
    (randomness : Dom) (hdiv : 0 < pp.sector_size / NODE_SIZE) :
    ∀ (cps : List (List PublicSector × List PrivateSector)) acc faults,
      (∀ cp ∈ cps,
        cp.1.zip cp.2 ≠ ([] : List (PublicSector × PrivateSector))) →
      ∃ prs faults2,
        proveWindowPartitions env pp randomness cps acc faults
          = .ok (prs, faults2) ∧
        (∀ x, x ∈ faults2 ↔ x ∈ faults ∨ ∃ cp ∈ cps, ∃ q ∈ cp.1.zip cp.2,
          x = q.1.id
            ∧ windowSectorFaulty env pp randomness q.1 q.2 = true) ∧
        (List.Pairwise (· < ·) faults → List.Pairwise (· < ·) faults2) := by
  intro cps
  induction cps with
  | nil =>
      intro acc faults _
      exact ⟨acc, faults, rfl, by simp, fun h => h⟩
  | cons cp rest ih =>
      intro acc faults hcond
      obtain ⟨pub_chunk, priv_chunk⟩ := cp
      obtain ⟨sps, f2, hchunk, hmem, hpw⟩ :=
        proveWindowChunk_spec env pp randomness hdiv
          (pub_chunk.zip priv_chunk) [] faults
      have hne : sps ≠ [] := by
        have hlen := proveWindowChunk_length env pp randomness _ _ _ _ hchunk
        simp only [List.length_nil, Nat.zero_add] at hlen
        intro hnil
        rw [hnil] at hlen
        exact hcond (pub_chunk, priv_chunk) (by simp)
          (List.length_eq_zero.mp hlen.symm)
      obtain ⟨padded, hpad⟩ := padLastGo_total
        (pp.sector_count - sps.length) sps hne
      obtain ⟨prs, f3, hrec, hmem3, hpw3⟩ :=
        ih (acc ++ [⟨padded⟩]) f2 (fun cp2 hcp2 => hcond cp2 (by simp [hcp2]))
      refine ⟨prs, f3, ?_, ?_, fun h => hpw3 (hpw h)⟩
      · rw [proveWindowPartitions, hchunk]
        dsimp only
        rw [padLast, hpad]
        exact hrec
      · intro x
        rw [hmem3 x, hmem x]
        constructor
        · rintro ((h | ⟨q2, hq2, hf2⟩) | ⟨cp2, hcp2, hin⟩)
          · exact Or.inl h
          · exact Or.inr ⟨(pub_chunk, priv_chunk), List.mem_cons_self _ _,
              q2, hq2, hf2⟩
          · exact Or.inr ⟨cp2, List.mem_cons_of_mem _ hcp2, hin⟩
        · rintro (h | ⟨cp2, hcp2, hin⟩)
          · exact Or.inl (Or.inl h)
          · rcases List.mem_cons.mp hcp2 with h1 | h1
            · subst h1
              exact Or.inl (Or.inr hin)
            · exact Or.inr ⟨cp2, h1, hin⟩

theorem zip_chunks_mem_aux {α β : Type} (n : Nat) (hn : n ≠ 0) :
    ∀ (N : Nat) (l1 : List α) (l2 : List β) (q : α × β), l1.length ≤ N →
      l1.length = l2.length →
      ((∃ cp ∈ (chunks n l1).zip (chunks n l2), q ∈ cp.1.zip cp.2)
        ↔ q ∈ l1.zip l2) := by
  intro N
  induction N with
  | zero =>
      intro l1 l2 q h1 h2
      have : l1 = [] := List.length_eq_zero.mp (Nat.le_zero.mp h1)
      subst this
      have : l2 = [] := List.length_eq_zero.mp h2.symm
      subst this
      simp [chunks_nil]
  | succ m ih =>
      intro l1 l2 q h1 h2
      cases hl1 : l1 with
      | nil =>
          subst hl1
          have : l2 = [] := List.length_eq_zero.mp h2.symm
          subst this
          simp [chunks_nil]
      | cons x xs =>
          have hl2ne : l2 ≠ [] := by
            intro hnil
            rw [hl1, hnil] at h2
            simp at h2
          rw [← hl1]
          have hl1ne : l1 ≠ [] := by rw [hl1]; simp
          rw [chunks_cons n hn l1 hl1ne, chunks_cons n hn l2 hl2ne]
          have htake : (l1.take n).length = (l2.take n).length := by
            simp [List.length_take, h2]
          have hsplit : l1.zip l2
              = (l1.take n).zip (l2.take n) ++ (l1.drop n).zip (l2.drop n) := by
            conv_lhs => rw [← List.take_append_drop n l1,
              ← List.take_append_drop n l2]
            exact List.zip_append htake
          have hdroplen : (l1.drop n).length ≤ m := by
            rw [hl1] at h1 ⊢
            simp only [List.length_drop, List.length_cons] at *
            omega
          have hdropeq : (l1.drop n).length = (l2.drop n).length := by
            simp [List.length_drop, h2]
          rw [hsplit]
          simp only [List.zip_cons_cons, List.mem_cons, List.mem_append]
          constructor
          · rintro ⟨cp, hcp | hcp, hq⟩
            · rw [hcp] at hq
              exact Or.inl hq
            · exact Or.inr ((ih _ _ q hdroplen hdropeq).mp ⟨cp, hcp, hq⟩)
          · rintro (h | h)
            · exact ⟨(l1.take n, l2.take n), Or.inl rfl, h⟩
            · obtain ⟨cp, hcp, hq⟩ := (ih _ _ q hdroplen hdropeq).mpr h
              exact ⟨cp, Or.inr hcp, hq⟩

theorem zip_chunks_mem {α β : Type} (n : Nat) (hn : n ≠ 0) (l1 : List α)
    (l2 : List β) (q : α × β) (h2 : l1.length = l2.length) :
    (∃ cp ∈ (chunks n l1).zip (chunks n l2), q ∈ cp.1.zip cp.2)
      ↔ q ∈ l1.zip l2 :=
  zip_chunks_mem_aux n hn l1.length l1 l2 q le_rfl h2

/-! ## C2 -/

/-- C2 (amended): for every Window-shape input that passes the prover's
preconditions (consistent lengths, positive leaf-challenge modulus, nonzero
`sector_count`, capacity bound) and in which some sector fails the prover's
per-challenge check (`windowSectorFaulty`: tree-call failure, validation
failure, root mismatch, or `comm_r` binding mismatch), `prove_all_partitions`
returns `Err(FaultySectors(L))` — no partition proofs — where `L` lists
exactly the ids of the failing sectors, strictly ascending (hence each id
once). -/
theorem prove_window_faulty (env : HashEnv) (pp : PublicParams)
    (pub_inputs : PublicInputs) (priv_inputs : PrivateInputs)
    (partition_count : Nat)
    (hshape : pp.shape = PoStShape.Window)
    (hlen : priv_inputs.sectors.length = pub_inputs.sectors.length)
    (hdiv : 0 < pp.sector_size / NODE_SIZE)
    (hnspc : pp.sector_count ≠ 0)
    (hens : pub_inputs.sectors.length ≤ wmul partition_count pp.sector_count)
    (hfault : ∃ q ∈ pub_inputs.sectors.zip priv_inputs.sectors,
        windowSectorFaulty env pp pub_inputs.randomness q.1 q.2 = true) :
    ∃ L, prove_all_partitions env pp pub_inputs priv_inputs partition_count
        = .error (.faultySectors L)
      ∧ List.Pairwise (· < ·) L
      ∧ ∀ x, x ∈ L ↔ ∃ q ∈ pub_inputs.sectors.zip priv_inputs.sectors,
          x = q.1.id
            ∧ windowSectorFaulty env pp pub_inputs.randomness q.1 q.2
                = true := by
  have hcps : ∀ cp ∈ (chunks pp.sector_count pub_inputs.sectors).zip
      (chunks pp.sector_count priv_inputs.sectors),
      cp.1.zip cp.2 ≠ ([] : List (PublicSector × PrivateSector)) := by
    intro cp hcp
    have hmem := List.of_mem_zip hcp
    have hc1 := chunks_mem _ hnspc pub_inputs.sectors _ hmem.1
    have hc2 := chunks_mem _ hnspc priv_inputs.sectors _ hmem.2
    rcases List.exists_cons_of_ne_nil hc1.1 with ⟨a, as, ha⟩
    rcases List.exists_cons_of_ne_nil hc2.1 with ⟨b, bs, hb⟩
    rw [ha, hb]
    simp
  obtain ⟨prs, faults2, hpart, hmem, hpw⟩ :=
    proveWindowPartitions_spec env pp pub_inputs.randomness hdiv
      ((chunks pp.sector_count pub_inputs.sectors).zip
        (chunks pp.sector_count priv_inputs.sectors)) [] [] hcps
  have hmemfull : ∀ x, x ∈ faults2 ↔
      ∃ q ∈ pub_inputs.sectors.zip priv_inputs.sectors,
        x = q.1.id
          ∧ windowSectorFaulty env pp pub_inputs.randomness q.1 q.2 = true := by
    intro x
    rw [hmem x]
    simp only [List.not_mem_nil, false_or]
    constructor
    · rintro ⟨cp, hcp, q, hq, hx, hf⟩
      exact ⟨q, (zip_chunks_mem _ hnspc _ _ q hlen.symm).mp ⟨cp, hcp, hq⟩,
        hx, hf⟩
    · rintro ⟨q, hq, hx, hf⟩
      obtain ⟨cp, hcp, hq2⟩ :=
        (zip_chunks_mem _ hnspc _ _ q hlen.symm).mpr hq
      exact ⟨cp, hcp, q, hq2, hx, hf⟩
  have hne : ¬ faults2.isEmpty := by
    obtain ⟨q, hq, hf⟩ := hfault
    have : q.1.id ∈ faults2 := (hmemfull q.1.id).mpr ⟨q, hq, rfl, hf⟩
    intro hemp
    rw [List.isEmpty_iff.mp hemp] at this
    simp at this
  refine ⟨faults2, ?_, hpw List.Pairwise.nil, hmemfull⟩
  rw [prove_all_partitions, if_neg (not_not_intro hlen), proveBody, hshape]
  rw [if_neg (not_not_intro hens), if_neg hnspc, hpart]
  dsimp only
  rw [if_neg hne]

/-- Witness for C2 (amended): the Window instance in which sectors 0 and 2
use failing trees; the call reports `FaultySectors [0, 2]`. -/
theorem prove_window_faulty_witness :
    ∃ L, prove_all_partitions env0 ppW pubW
        ⟨[⟨badTree, [3], [0]⟩, ⟨goodTree [2], [4], [2]⟩,
          ⟨badTree, [6], [9]⟩]⟩ 2
        = .error (.faultySectors L)
      ∧ List.Pairwise (· < ·) L
      ∧ ∀ x, x ∈ L ↔ ∃ q ∈ pubW.sectors.zip
          ([⟨badTree, [3], [0]⟩, ⟨goodTree [2], [4], [2]⟩,
            ⟨badTree, [6], [9]⟩] : List PrivateSector),
          x = q.1.id ∧ windowSectorFaulty env0 ppW pubW.randomness q.1 q.2
            = true :=
  prove_window_faulty env0 ppW pubW
    ⟨[⟨badTree, [3], [0]⟩, ⟨goodTree [2], [4], [2]⟩, ⟨badTree, [6], [9]⟩]⟩ 2
    rfl rfl (by decide) (by decide) (by decide)
    ⟨(⟨0, env0.hash2 [3] [0]⟩, ⟨badTree, [3], [0]⟩),
      List.Mem.head _, by decide⟩

/-- C2 counterexample: the claim as stated quantifies over all shapes and
calls a sector "faulty" as soon as its tree call fails, among other
conditions.  In the Winning shape only sector 0 is ever examined: here
sector 1's tree call fails on every query (the claim's fault condition), yet
`prove_all_partitions` succeeds instead of returning
`Err(FaultySectors([1]))`. -/
theorem prove_winning_ignores_unexamined_faulty_sector :
    (∃ s, privN2bad.sectors[1]? = some s ∧
      ∀ leaf rows, s.tree.gen_cached_proof leaf rows = .error ()) ∧
    (prove_all_partitions env0 ppN2 pubN2 privN2bad 1).bind
        (fun _ => Except.ok true) = .ok true :=
  ⟨⟨⟨badTree, [4], [2]⟩, rfl, fun _ _ => rfl⟩, by decide⟩

/-! ## Helper lemmas: enumeration -/

theorem enumFrom_all (f : β → Bool) :
    ∀ (l : List β) (k : Nat),
      ((List.enumFrom k l).all fun e => f e.2) = l.all f := by
  intro l
  induction l with
  | nil => intro k; rfl
  | cons x xs ih =>
      intro k
      simp only [List.enumFrom, List.all_cons, ih]

theorem enumFrom_forall (P : β → Prop) :
    ∀ (l : List β) (k : Nat),
      (∀ e ∈ List.enumFrom k l, P e.2) ↔ ∀ p ∈ l, P p := by
  intro l
  induction l with
  | nil => intro k; simp
  | cons x xs ih =>
      intro k
      simp only [List.enumFrom, List.mem_cons]
      constructor
      · intro h p hp
        rcases hp with hp | hp
        · have := h (k, x) (Or.inl rfl)
          rw [hp]; exact this
        · exact (ih (k + 1)).mp (fun e he => h e (Or.inr he)) p hp
      · rintro h e (he | he)
        · rw [he]; exact h x (Or.inl rfl)
        · exact (ih (k + 1)).mpr (fun p hp => h p (Or.inr hp)) e he

theorem enumFrom_exists (P : β → Prop) :
    ∀ (l : List β) (k : Nat),
      (∃ e ∈ List.enumFrom k l, P e.2) ↔ ∃ p ∈ l, P p := by
  intro l
  induction l with
  | nil => intro k; simp
  | cons x xs ih =>
      intro k
      simp only [List.enumFrom, List.mem_cons]
      constructor
      · rintro ⟨e, he | he, hP⟩
        · rw [he] at hP
          exact ⟨x, Or.inl rfl, hP⟩
        · obtain ⟨p, hp, hP2⟩ := (ih (k + 1)).mp ⟨e, he, hP⟩
          exact ⟨p, Or.inr hp, hP2⟩
      · rintro ⟨p, hp | hp, hP⟩
        · exact ⟨(k, x), Or.inl rfl, by rw [hp] at hP; exact hP⟩
        · obtain ⟨e, he, hP2⟩ := (ih (k + 1)).mpr ⟨p, hp, hP⟩
          exact ⟨e, Or.inr he, hP2⟩

/-! ## Helper lemmas: the Window verifier -/

theorem verifyInclusionProofs_window (env : HashEnv) (pp : PublicParams)
    (randomness : Dom) (hshape : pp.shape = PoStShape.Window)
    (hdiv : 0 < pp.sector_size / NODE_SIZE) (j i sector_id : Nat)
    (root0 : Dom) :
    ∀ L : List (Nat × MerkleProofM),
      verifyInclusionProofs env pp randomness j i sector_id root0 L
        = .ok (L.all fun q => decide (q.2.root = root0)
            && decide (q.2.expected_len (pp.sector_size / NODE_SIZE)
                = q.2.path.length)
            && q.2.validate (leafChalVal env pp randomness sector_id q.1)) := by
  intro L
  induction L with
  | nil => rfl
  | cons q rest ih =>
      obtain ⟨n, ip⟩ := q
      rw [verifyInclusionProofs, challengeIndexFor, hshape]
      dsimp only
      rw [generate_leaf_challenge_ok env pp randomness sector_id n hdiv]
      dsimp only
      by_cases h1 : ip.root = root0
      · rw [if_neg (not_not_intro h1)]
        by_cases h2 : ip.expected_len (pp.sector_size / NODE_SIZE)
            = ip.path.length
        · rw [if_neg (not_not_intro h2)]
          by_cases h3 : ip.validate
              (leafChalVal env pp randomness sector_id n) = true
          · rw [if_neg (by simp [h3])]
            rw [ih]
            simp [h1, h2, h3]
          · have h3f : ip.validate
                (leafChalVal env pp randomness sector_id n) = false := by
              simpa using h3
            rw [if_pos h3f]
            simp [h3f]
        · rw [if_pos h2]
          simp [h2]
      · rw [if_pos h1]
        simp [h1]

theorem verifySectors_window (env : HashEnv) (pp : PublicParams)
    (randomness : Dom) (hshape : pp.shape = PoStShape.Window)
    (hdiv : 0 < pp.sector_size / NODE_SIZE) (hcc : 0 < pp.challenge_count)
    (j : Nat) :
    ∀ L : List (Nat × (PublicSector × SectorProof)),
      (∀ e ∈ L, e.2.2.inclusion_proofs.length = pp.challenge_count) →
      verifySectors env pp randomness j L
        = .ok (L.all fun e => sectorChecks env pp randomness e.2.1 e.2.2) := by
  intro L
  induction L with
  | nil => intro _; rfl
  | cons e rest ih =>
      intro hlen
      obtain ⟨i, ps, sp⟩ := e
      have hl : sp.inclusion_proofs.length = pp.challenge_count :=
        hlen (i, ps, sp) (List.mem_cons_self _ _)
      have hne : sp.inclusion_proofs ≠ [] := by
        intro hnil
        rw [hnil] at hl
        simp at hl
        omega
      obtain ⟨p0, ips, hips⟩ := List.exists_cons_of_ne_nil hne
      rw [verifySectors, hips]
      dsimp only [List.head?]
      by_cases hhash : env.hash2 sp.comm_c p0.root = ps.comm_r
      · rw [if_neg (not_not_intro hhash)]
        rw [if_neg (not_not_intro (by rw [← hips] at *; exact hl.symm))]
        rw [← hips]
        rw [verifyInclusionProofs_window env pp randomness hshape hdiv j i
          ps.id p0.root sp.inclusion_proofs.enum]
        cases hall : sp.inclusion_proofs.enum.all fun q =>
            decide (q.2.root = p0.root)
            && decide (q.2.expected_len (pp.sector_size / NODE_SIZE)
                = q.2.path.length)
            && q.2.validate (leafChalVal env pp randomness ps.id q.1) with
        | false =>
            dsimp only
            have hsc : sectorChecks env pp randomness ps sp = false := by
              unfold sectorChecks
              rw [hips]
              dsimp only [List.head?]
              rw [← hips, hall]
              simp
            simp [hsc]
        | true =>
            dsimp only
            rw [ih (fun e2 he2 => hlen e2 (List.mem_cons_of_mem _ he2))]
            have hsc : sectorChecks env pp randomness ps sp = true := by
              unfold sectorChecks
              rw [hips]
              dsimp only [List.head?]
              rw [← hips, hall]
              simp [hhash]
            simp [hsc]
      · rw [if_pos hhash]
        have hsc : sectorChecks env pp randomness ps sp = false := by
          unfold sectorChecks
          rw [hips]
          dsimp only [List.head?]
          simp [hhash]
        simp [hsc]

theorem verifyPartitions_window (env : HashEnv) (pp : PublicParams)
    (randomness : Dom) (hshape : pp.shape = PoStShape.Window)
    (hdiv : 0 < pp.sector_size / NODE_SIZE) (hcc : 0 < pp.challenge_count) :
    ∀ L : List (Nat × (Proof × List PublicSector)),
      (∀ e ∈ L, e.2.2.length ≤ pp.sector_count
        ∧ e.2.1.sectors.length = pp.sector_count
        ∧ ∀ q ∈ e.2.2.zip e.2.1.sectors,
            q.2.inclusion_proofs.length = pp.challenge_count) →
      verifyPartitions env pp randomness L
        = .ok (L.all fun e => (e.2.2.zip e.2.1.sectors).all fun q =>
            sectorChecks env pp randomness q.1 q.2) := by
  intro L
  induction L with
  | nil => intro _; rfl
  | cons e rest ih =>
      intro hcond
      obtain ⟨j, pr, chunk⟩ := e
      obtain ⟨hle, hslen, hinner⟩ := hcond (j, pr, chunk)
        (List.mem_cons_self _ _)
      rw [verifyPartitions]
      rw [if_neg (not_not_intro hle), if_neg (not_not_intro hslen)]
      rw [verifySectors_window env pp randomness hshape hdiv hcc j
        ((chunk.zip pr.sectors).enum)
        ((enumFrom_forall _ _ _).mpr hinner)]
      rw [List.enum, enumFrom_all
        (fun q : PublicSector × SectorProof =>
          sectorChecks env pp randomness q.1 q.2) (chunk.zip pr.sectors) 0]
      cases hall : (chunk.zip pr.sectors).all fun q =>
          sectorChecks env pp randomness q.1 q.2 with
      | false =>
          dsimp only
          simp [hall]
      | true =>
          dsimp only
          rw [ih (fun e2 he2 => hcond e2 (List.mem_cons_of_mem _ he2))]
          simp [hall]

theorem verifySectors_count_mismatch (env : HashEnv) (pp : PublicParams)
    (randomness : Dom) (hshape : pp.shape = PoStShape.Window)
    (hdiv : 0 < pp.sector_size / NODE_SIZE) (j : Nat) :
    ∀ L : List (Nat × (PublicSector × SectorProof)),
      (∀ e ∈ L, sectorChecks env pp randomness e.2.1 e.2.2 = true
        ∧ e.2.2.inclusion_proofs ≠ []) →
      (∃ e ∈ L, e.2.2.inclusion_proofs.length ≠ pp.challenge_count) →
      verifySectors env pp randomness j L = .error .ensureFailure := by
  intro L
  induction L with
  | nil => rintro _ ⟨e, he, _⟩; simp at he
  | cons e rest ih =>
      rintro hcond hex
      obtain ⟨i, ps, sp⟩ := e
      obtain ⟨hsc, hne⟩ := hcond (i, ps, sp) (List.mem_cons_self _ _)
      obtain ⟨p0, ips, hips⟩ := List.exists_cons_of_ne_nil hne
      have hhash : env.hash2 sp.comm_c p0.root = ps.comm_r := by
        unfold sectorChecks at hsc
        rw [hips] at hsc
        dsimp only [List.head?] at hsc
        simp only [Bool.and_eq_true, decide_eq_true_eq] at hsc
        exact hsc.1
      rw [verifySectors, hips]
      dsimp only [List.head?]
      rw [if_neg (not_not_intro hhash)]
      by_cases hct : pp.challenge_count = sp.inclusion_proofs.length
      · rw [hips] at hct
        rw [if_neg (not_not_intro hct)]
        rw [← hips] at hct
        rw [← hips]
        rw [verifyInclusionProofs_window env pp randomness hshape hdiv j i
          ps.id p0.root sp.inclusion_proofs.enum]
        have hall : (sp.inclusion_proofs.enum.all fun q =>
            decide (q.2.root = p0.root)
            && decide (q.2.expected_len (pp.sector_size / NODE_SIZE)
                = q.2.path.length)
            && q.2.validate (leafChalVal env pp randomness ps.id q.1))
            = true := by
          unfold sectorChecks at hsc
          rw [hips] at hsc
          dsimp only [List.head?] at hsc
          rw [← hips] at hsc
          simp only [Bool.and_eq_true] at hsc
          exact hsc.2
        rw [hall]
        dsimp only
        apply ih (fun e2 he2 => hcond e2 (List.mem_cons_of_mem _ he2))
        rcases hex with ⟨e2, he2, hlen2⟩
        rcases List.mem_cons.mp he2 with h1 | h1
        · exfalso
          rw [h1] at hlen2
          exact hlen2 hct.symm
        · exact ⟨e2, h1, hlen2⟩
      · rw [hips] at hct
        rw [if_pos hct]

theorem verifyPartitions_struct_error (env : HashEnv) (pp : PublicParams)
    (randomness : Dom) (hshape : pp.shape = PoStShape.Window)
    (hdiv : 0 < pp.sector_size / NODE_SIZE) (hcc : 0 < pp.challenge_count) :
    ∀ L : List (Nat × (Proof × List PublicSector)),
      (∀ e ∈ L, e.2.2.length ≤ pp.sector_count
        ∧ (∀ q ∈ e.2.2.zip e.2.1.sectors,
            sectorChecks env pp randomness q.1 q.2 = true
            ∧ q.2.inclusion_proofs ≠ [])) →
      (∃ e ∈ L, ¬ partitionStructOk pp e.2.1 e.2.2) →
      verifyPartitions env pp randomness L = .error .ensureFailure := by
  intro L
  induction L with
  | nil => rintro _ ⟨e, he, _⟩; simp at he
  | cons e rest ih =>
      rintro hcond hex
      obtain ⟨j, pr, chunk⟩ := e
      obtain ⟨hle, hq⟩ := hcond (j, pr, chunk) (List.mem_cons_self _ _)
      rw [verifyPartitions]
      rw [if_neg (not_not_intro hle)]
      by_cases hslen : pr.sectors.length = pp.sector_count
      · rw [if_neg (not_not_intro hslen)]
        by_cases hstruct : ∀ q ∈ chunk.zip pr.sectors,
            q.2.inclusion_proofs.length = pp.challenge_count
        · rw [verifySectors_window env pp randomness hshape hdiv hcc j
            ((chunk.zip pr.sectors).enum)
            ((enumFrom_forall _ _ _).mpr hstruct)]
          have hall : ((chunk.zip pr.sectors).enum.all fun e2 =>
              sectorChecks env pp randomness e2.2.1 e2.2.2) = true := by
            rw [List.enum, enumFrom_all
              (fun q : PublicSector × SectorProof =>
                sectorChecks env pp randomness q.1 q.2)
              (chunk.zip pr.sectors) 0]
            rw [List.all_eq_true]
            intro q hq2
            exact (hq q hq2).1
          rw [hall]
          dsimp only
          apply ih (fun e2 he2 => hcond e2 (List.mem_cons_of_mem _ he2))
          rcases hex with ⟨e2, he2, hns⟩
          rcases List.mem_cons.mp he2 with h1 | h1
          · exfalso
            rw [h1] at hns
            exact hns ⟨hslen, hstruct⟩
          · exact ⟨e2, h1, hns⟩
        · have herr := verifySectors_count_mismatch env pp randomness hshape
            hdiv j ((chunk.zip pr.sectors).enum)
            ((enumFrom_forall _ _ _).mpr hq)
            ((enumFrom_exists
                (fun q : PublicSector × SectorProof =>
                  q.2.inclusion_proofs.length ≠ pp.challenge_count)
                (chunk.zip pr.sectors) 0).mpr
              (by push_neg at hstruct; exact hstruct))
          rw [herr]
      · rw [if_pos hslen]

/-! ## C4 -/

/-- C4 (amended): on Window-shape inputs that pass the verifier's top-level
capacity check, with nonzero `sector_count`, positive `challenge_count` and a
positive leaf-challenge modulus:
(a) when every examined `(proof, chunk)` pair is structurally consistent
(`partitionStructOk`: `sectors.len = sector_count` and every examined sector
proof has `challenge_count` inclusion proofs), verification never errors — it
returns `Ok` of the combined cryptographic verdict `verifyVerdict`, which is
`false` exactly when some examined pair fails a cryptographic check;
(b) when every examined cryptographic check passes and every examined
inclusion-proof list is non-empty but some examined pair is structurally
inconsistent, verification returns the `ensure!` error (never `Ok(false)`).
As stated the claim is false: checks run in iteration order, and the `comm_r`
binding check of a sector precedes its inclusion-count check, so an input can
have an inclusion-count mismatch and still get `Ok(false)`
(see the counterexample). -/
theorem verify_error_vs_false (env : HashEnv) (pp : PublicParams)
    (pub_inputs : PublicInputs) (partition_proofs : List Proof)
    (hshape : pp.shape = PoStShape.Window)
    (hdiv : 0 < pp.sector_size / NODE_SIZE)
    (hcc : 0 < pp.challenge_count)
    (hnspc : pp.sector_count ≠ 0)
    (hens : pub_inputs.sectors.length
        ≤ wmul pp.sector_count partition_proofs.length) :
    ( (∀ e ∈ partition_proofs.zip
          (chunks pp.sector_count pub_inputs.sectors),
        partitionStructOk pp e.1 e.2) →
      verify_all_partitions env pp pub_inputs partition_proofs
        = .ok (verifyVerdict env pp pub_inputs.randomness partition_proofs
            pub_inputs.sectors) )
    ∧ ( verifyVerdict env pp pub_inputs.randomness partition_proofs
          pub_inputs.sectors = false
        ↔ ∃ e ∈ partition_proofs.zip
            (chunks pp.sector_count pub_inputs.sectors),
          ∃ q ∈ e.2.zip e.1.sectors,
            sectorChecks env pp pub_inputs.randomness q.1 q.2 = false )
    ∧ ( (∀ e ∈ partition_proofs.zip
            (chunks pp.sector_count pub_inputs.sectors),
          ∀ q ∈ e.2.zip e.1.sectors,
            sectorChecks env pp pub_inputs.randomness q.1 q.2 = true
            ∧ q.2.inclusion_proofs ≠ []) →
        (∃ e ∈ partition_proofs.zip
            (chunks pp.sector_count pub_inputs.sectors),
          ¬ partitionStructOk pp e.1 e.2) →
        verify_all_partitions env pp pub_inputs partition_proofs
          = .error .ensureFailure ) := by
  have hchunklen : ∀ e ∈ partition_proofs.zip
      (chunks pp.sector_count pub_inputs.sectors),
      e.2.length ≤ pp.sector_count := by
    intro e he
    exact (chunks_mem _ hnspc pub_inputs.sectors _ (List.of_mem_zip he).2).2
  refine ⟨?_, ?_, ?_⟩
  · intro hstruct
    rw [verify_all_partitions, if_neg (not_not_intro hens), if_neg hnspc]
    rw [verifyPartitions_window env pp pub_inputs.randomness hshape hdiv hcc]
    · rw [List.enum, enumFrom_all
        (fun e : Proof × List PublicSector => (e.2.zip e.1.sectors).all
          fun q => sectorChecks env pp pub_inputs.randomness q.1 q.2)
        (partition_proofs.zip (chunks pp.sector_count pub_inputs.sectors)) 0,
        verifyVerdict]
    · exact (enumFrom_forall
        (fun e : Proof × List PublicSector => e.2.length ≤ pp.sector_count
          ∧ e.1.sectors.length = pp.sector_count
          ∧ ∀ q ∈ e.2.zip e.1.sectors,
              q.2.inclusion_proofs.length = pp.challenge_count)
        (partition_proofs.zip (chunks pp.sector_count pub_inputs.sectors))
        0).mpr
        (fun e he => ⟨hchunklen e he, (hstruct e he).1, (hstruct e he).2⟩)
  · rw [verifyVerdict]
    simp [List.all_eq_true]
  · intro hcrypto hex
    rw [verify_all_partitions, if_neg (not_not_intro hens), if_neg hnspc]
    apply verifyPartitions_struct_error env pp pub_inputs.randomness hshape
      hdiv hcc
    · exact (enumFrom_forall
        (fun e : Proof × List PublicSector => e.2.length ≤ pp.sector_count
          ∧ ∀ q ∈ e.2.zip e.1.sectors,
              sectorChecks env pp pub_inputs.randomness q.1 q.2 = true
              ∧ q.2.inclusion_proofs ≠ [])
        (partition_proofs.zip (chunks pp.sector_count pub_inputs.sectors))
        0).mpr (fun e he => ⟨hchunklen e he, hcrypto e he⟩)
    · exact (enumFrom_exists
        (fun e : Proof × List PublicSector => ¬ partitionStructOk pp e.1 e.2)
        (partition_proofs.zip (chunks pp.sector_count pub_inputs.sectors))
        0).mpr hex

/-- C4 counterexample: the claim as stated promises an error (never
`Ok(false)`) whenever a sector proof's inclusion-proof count differs from
`challenge_count`.  Here the single sector proof has 2 inclusion proofs
against `challenge_count = 1`, but its `comm_r` binding check — which the
verifier runs first — fails, so the verifier returns `Ok(false)` instead of
the structural error. -/
theorem verify_false_despite_count_mismatch :
    (∃ pr sp, proofs1.head? = some pr ∧ pr.sectors.head? = some sp ∧
        sp.inclusion_proofs.length = 2) ∧
    pp1.challenge_count = 1 ∧
    verify_all_partitions env0 pp1 pub1 proofs1 = .ok false :=
  ⟨⟨_, _, rfl, rfl, rfl⟩, rfl, by decide⟩

/-- Witness for C4 (amended), part (a), at the good Window instance: with all
structural checks in place the verifier returns `Ok` of the combined
cryptographic verdict. -/
theorem verify_error_vs_false_witness :
    verify_all_partitions env0 ppW pubW provedW
      = .ok (verifyVerdict env0 ppW pubW.randomness provedW pubW.sectors) :=
  (verify_error_vs_false env0 ppW pubW provedW rfl (by decide) (by decide)
    (by decide) (by decide)).1 (by decide)

/-! ## Helper lemmas: indexed enumeration and chunk arithmetic -/

theorem enumFrom_mem_getElem {α : Type} :
    ∀ (l : List α) (k : Nat) (e : Nat × α), e ∈ List.enumFrom k l →
      ∃ i, ∃ h : i < l.length, e.1 = k + i ∧ e.2 = l.get ⟨i, h⟩ := by
  intro l
  induction l with
  | nil => intro k e he; simp at he
  | cons x xs ih =>
      intro k e he
      rw [List.enumFrom] at he
      rcases List.mem_cons.mp he with h | h
      · refine ⟨0, by simp, ?_, ?_⟩
        · simp [h]
        · simp [h]
      · obtain ⟨i, hi, h1, h2⟩ := ih (k + 1) e h
        refine ⟨i + 1, by simpa using Nat.succ_lt_succ hi, by omega, ?_⟩
        rw [h2]
        rfl

theorem chunks_length_le {α : Type} (n : Nat) (hn : n ≠ 0) :
    ∀ (N k : Nat) (l : List α), l.length ≤ N → l.length ≤ k * n →
      (chunks n l).length ≤ k := by
  intro N
  induction N with
  | zero =>
      intro k l h1 h2
      have : l = [] := List.length_eq_zero.mp (Nat.le_zero.mp h1)
      subst this
      simp [chunks_nil]
  | succ m ih =>
      intro k l h1 h2
      cases hl : l with
      | nil => simp [chunks_nil]
      | cons x xs =>
          subst hl
          rw [chunks_cons n hn _ (by simp)]
          cases k with
          | zero => simp at h2
          | succ j =>
              simp only [List.length_cons]
              have hdrop : ((x :: xs).drop n).length ≤ m := by
                simp only [List.length_drop, List.length_cons] at *
                omega
              have hdrop2 : ((x :: xs).drop n).length ≤ j * n := by
                simp only [List.length_drop, List.length_cons] at *
                have : (j + 1) * n = j * n + n := by ring
                omega
              have := ih j _ hdrop hdrop2
              omega

theorem length_le_mul_chunks {α : Type} (n : Nat) (hn : n ≠ 0) :
    ∀ (N : Nat) (l : List α), l.length ≤ N →
      l.length ≤ n * (chunks n l).length := by
  intro N
  induction N with
  | zero =>
      intro l h1
      have : l = [] := List.length_eq_zero.mp (Nat.le_zero.mp h1)
      subst this
      simp [chunks_nil]
  | succ m ih =>
      intro l h1
      cases hl : l with
      | nil => simp [chunks_nil]
      | cons x xs =>
          subst hl
          rw [chunks_cons n hn _ (by simp)]
          simp only [List.length_cons]
          rw [Nat.mul_add, Nat.mul_one]
          have hdrop : ((x :: xs).drop n).length ≤ m := by
            simp only [List.length_drop, List.length_cons] at *
            omega
          have := ih _ hdrop
          simp only [List.length_drop, List.length_cons] at *
          omega

theorem chunks_length_eq {α β : Type} (n : Nat) (hn : n ≠ 0) :
    ∀ (N : Nat) (l1 : List α) (l2 : List β), l1.length ≤ N →
      l1.length = l2.length →
      (chunks n l1).length = (chunks n l2).length := by
  intro N
  induction N with
  | zero =>
      intro l1 l2 h1 h2
      have : l1 = [] := List.length_eq_zero.mp (Nat.le_zero.mp h1)
      subst this
      have : l2 = [] := List.length_eq_zero.mp h2.symm
      subst this
      rfl
  | succ m ih =>
      intro l1 l2 h1 h2
      cases hl1 : l1 with
      | nil =>
          subst hl1
          have : l2 = [] := List.length_eq_zero.mp h2.symm
          subst this
          rfl
      | cons x xs =>
          subst hl1
          have hl2 : l2 ≠ [] := by
            intro hnil
            rw [hnil] at h2
            simp at h2
          rw [chunks_cons n hn _ (by simp), chunks_cons n hn _ hl2]
          simp only [List.length_cons]
          congr 1
          apply ih
          · simp only [List.length_drop, List.length_cons] at *
            omega
          · simp only [List.length_drop, h2]

theorem chunks_zip_length_eq {α β : Type} (n : Nat) (hn : n ≠ 0) :
    ∀ (N : Nat) (l1 : List α) (l2 : List β), l1.length ≤ N →
      l1.length = l2.length →
      ∀ cp ∈ (chunks n l1).zip (chunks n l2), cp.1.length = cp.2.length := by
  intro N
  induction N with
  | zero =>
      intro l1 l2 h1 h2 cp hcp
      have : l1 = [] := List.length_eq_zero.mp (Nat.le_zero.mp h1)
      subst this
      simp [chunks_nil] at hcp
  | succ m ih =>
      intro l1 l2 h1 h2 cp hcp
      cases hl1 : l1 with
      | nil =>
          subst hl1
          simp [chunks_nil] at hcp
      | cons x xs =>
          subst hl1
          have hl2 : l2 ≠ [] := by
            intro hnil
            rw [hnil] at h2
            simp at h2
          rw [chunks_cons n hn _ (by simp), chunks_cons n hn _ hl2] at hcp
          rw [List.zip_cons_cons] at hcp
          rcases List.mem_cons.mp hcp with h | h
          · rw [h]
            simp [List.length_take, h2]
          · apply ih _ _ _ _ cp h
            · simp only [List.length_drop, List.length_cons] at *
              omega
            · simp only [List.length_drop, h2]

theorem chunks_single {α : Type} (n : Nat) (hn : n ≠ 0) (l : List α)
    (hne : l ≠ []) (hle : l.length ≤ n) : chunks n l = [l] := by
  rw [chunks_cons n hn l hne, List.take_of_length_le hle,
    List.drop_eq_nil_of_le hle, chunks_nil]

theorem zip_append_right {α β : Type} :
    ∀ (a : List α) (b c : List β), a.length = b.length →
      a.zip (b ++ c) = a.zip b := by
  intro a
  induction a with
  | nil => intro b c _; rfl
  | cons x xs ih =>
      intro b c h
      cases b with
      | nil => simp at h
      | cons y ys =>
          simp only [List.cons_append, List.zip_cons_cons]
          congr 1
          apply ih
          simpa using h

theorem zip_map_zip {α β γ : Type} (g : α × β → γ) :
    ∀ (l : List α) (m : List β),
      l.zip ((l.zip m).map g) = (l.zip m).map (fun q => (q.1, g q)) := by
  intro l
  induction l with
  | nil => intro m; rfl
  | cons x xs ih =>
      intro m
      cases m with
      | nil => rfl
      | cons y ys =>
          simp only [List.zip_cons_cons, List.map_cons]
          congr 1
          exact ih ys

theorem map_zip_fst {α β γ : Type} (g : α × β → γ) :
    ∀ (A : List α) (B : List β), A.length = B.length →
      ((A.zip B).map g).zip A = (A.zip B).map (fun cp => (g cp, cp.1)) := by
  intro A
  induction A with
  | nil => intro B _; rfl
  | cons a as ih =>
      intro B h
      cases B with
      | nil => simp at h
      | cons b bs =>
          simp only [List.zip_cons_cons, List.map_cons]
          congr 1
          apply ih
          simpa using h

/-! ## Helper lemmas: the Window prover on good sectors -/

theorem collectResults_proofs :
    ∀ (ps acc : List MerkleProofM) (faults : List Nat),
      collectResults (ps.map ProofOrFault.proof) acc faults
        = (acc ++ ps, faults) := by
  intro ps
  induction ps with
  | nil => intro acc faults; simp [collectResults]
  | cons p rest ih =>
      intro acc faults
      rw [List.map_cons, collectResults, ih]
      simp

theorem goodSector_proofAt (env : HashEnv) (pp : PublicParams)
    (randomness : Dom) (pub_sector : PublicSector)
    (priv_sector : PrivateSector)
    (hgood : goodSectorPair env pp pub_sector priv_sector) (n : Nat) :
    priv_sector.tree.gen_cached_proof
        (leafChalVal env pp randomness pub_sector.id n)
        (some (env.rowsToDiscard priv_sector.tree.leafs env.arity))
      = .ok (windowProofAt env pp randomness pub_sector priv_sector n)
    ∧ (windowProofAt env pp randomness pub_sector priv_sector n).root
        = priv_sector.comm_r_last
    ∧ (windowProofAt env pp randomness pub_sector priv_sector n).validate
        (leafChalVal env pp randomness pub_sector.id n) = true
    ∧ (windowProofAt env pp randomness pub_sector priv_sector n).path.length
        = (windowProofAt env pp randomness pub_sector priv_sector n
            ).expected_len (pp.sector_size / NODE_SIZE) := by
  obtain ⟨p, hp, h1, h2, h3⟩ := hgood.2
    (leafChalVal env pp randomness pub_sector.id n)
    (some (env.rowsToDiscard priv_sector.tree.leafs env.arity))
  have hw : windowProofAt env pp randomness pub_sector priv_sector n = p := by
    unfold windowProofAt
    rw [hp]
  rw [hw, hp]
  exact ⟨rfl, h1, h2, h3⟩

theorem proveWindowSector_good (env : HashEnv) (pp : PublicParams)
    (randomness : Dom) (pub_sector : PublicSector)
    (priv_sector : PrivateSector) (faults : List Nat)
    (hdiv : 0 < pp.sector_size / NODE_SIZE)
    (hgood : goodSectorPair env pp pub_sector priv_sector) :
    proveWindowSector env pp randomness pub_sector priv_sector faults
      = .ok (windowSectorProofOf env pp randomness (pub_sector, priv_sector),
          faults) := by
  unfold proveWindowSector
  rw [generate_leaf_challenges_ok env pp randomness pub_sector.id
    pp.challenge_count hdiv]
  dsimp only
  have hres : (List.range pp.challenge_count).map
      (windowChallengeResult env pub_sector priv_sector
        (env.rowsToDiscard priv_sector.tree.leafs env.arity)
        ((List.range pp.challenge_count).map
          (leafChalVal env pp randomness pub_sector.id)))
      = ((List.range pp.challenge_count).map
          (windowProofAt env pp randomness pub_sector priv_sector)).map
        ProofOrFault.proof := by
    rw [List.map_map]
    apply List.map_congr_left
    intro n hn
    have hn2 := List.mem_range.mp hn
    obtain ⟨hp, h1, h2, h3⟩ :=
      goodSector_proofAt env pp randomness pub_sector priv_sector hgood n
    unfold windowChallengeResult
    rw [getD_map_range _ _ _ hn2]
    dsimp only [Function.comp]
    rw [hp]
    dsimp only
    rw [if_pos (by simp [h1, h2, hgood.1])]
  rw [hres, collectResults_proofs]
  simp [windowSectorProofOf]

theorem windowSectorProofOf_checks (env : HashEnv) (pp : PublicParams)
    (randomness : Dom) (pub_sector : PublicSector)
    (priv_sector : PrivateSector)
    (hgood : goodSectorPair env pp pub_sector priv_sector)
    (hcc : 0 < pp.challenge_count) :
    sectorChecks env pp randomness pub_sector
      (windowSectorProofOf env pp randomness (pub_sector, priv_sector))
      = true := by
  obtain ⟨m, hm⟩ := Nat.exists_eq_succ_of_ne_zero (Nat.pos_iff_ne_zero.mp hcc)
  have hhead : ((List.range pp.challenge_count).map
      (windowProofAt env pp randomness pub_sector priv_sector)).head?
      = some (windowProofAt env pp randomness pub_sector priv_sector 0) := by
    rw [hm, List.range_succ_eq_map]
    rfl
  unfold sectorChecks windowSectorProofOf
  dsimp only
  rw [hhead]
  obtain ⟨_, hroot0, _, _⟩ :=
    goodSector_proofAt env pp randomness pub_sector priv_sector hgood 0
  rw [Bool.and_eq_true]
  constructor
  · rw [hroot0]
    simp [hgood.1]
  · rw [List.all_eq_true]
    intro e he
    obtain ⟨i, hi, h1, h2⟩ := enumFrom_mem_getElem _ 0 e he
    rw [List.length_map, List.length_range] at hi
    have hget : e.2 = windowProofAt env pp randomness pub_sector priv_sector
        i := by
      rw [h2]
      simp
    have hidx : e.1 = i := by omega
    obtain ⟨_, hroot, hval, hpath⟩ :=
      goodSector_proofAt env pp randomness pub_sector priv_sector hgood i
    rw [hget, hidx, hroot, hroot0, hpath]
    simp [hval]

theorem proveWindowChunk_good (env : HashEnv) (pp : PublicParams)
    (randomness : Dom) (hdiv : 0 < pp.sector_size / NODE_SIZE) :
    ∀ (pairs : List (PublicSector × PrivateSector)) acc faults,
      (∀ q ∈ pairs, goodSectorPair env pp q.1 q.2) →
      proveWindowChunk env pp randomness pairs acc faults
        = .ok (acc ++ pairs.map (windowSectorProofOf env pp randomness),
            faults) := by
  intro pairs
  induction pairs with
  | nil => intro acc faults _; simp [proveWindowChunk]
  | cons q rest ih =>
      intro acc faults hgood
      obtain ⟨ps, vs⟩ := q
      rw [proveWindowChunk, proveWindowSector_good env pp randomness ps vs
        faults hdiv (hgood (ps, vs) (List.mem_cons_self _ _))]
      dsimp only
      rw [ih (acc ++ [windowSectorProofOf env pp randomness (ps, vs)]) faults
        (fun q hq => hgood q (List.mem_cons_of_mem _ hq))]
      simp

theorem proveWindowPartitions_good (env : HashEnv) (pp : PublicParams)
    (randomness : Dom) (hdiv : 0 < pp.sector_size / NODE_SIZE) :
    ∀ (cps : List (List PublicSector × List PrivateSector)) acc faults,
      (∀ cp ∈ cps, ∀ q ∈ cp.1.zip cp.2, goodSectorPair env pp q.1 q.2) →
      (∀ cp ∈ cps,
        cp.1.zip cp.2 ≠ ([] : List (PublicSector × PrivateSector))) →
      proveWindowPartitions env pp randomness cps acc faults
        = .ok (acc ++ cps.map (windowPartitionProofOf env pp randomness),
            faults) := by
  intro cps
  induction cps with
  | nil => intro acc faults _ _; simp [proveWindowPartitions]
  | cons cp rest ih =>
      intro acc faults hgood hne
      obtain ⟨pub_chunk, priv_chunk⟩ := cp
      rw [proveWindowPartitions,
        proveWindowChunk_good env pp randomness hdiv _ [] faults
          (hgood (pub_chunk, priv_chunk) (List.mem_cons_self _ _))]
      dsimp only
      have hcorene : (pub_chunk.zip priv_chunk).map
          (windowSectorProofOf env pp randomness) ≠ [] := by
        intro hnil
        exact hne (pub_chunk, priv_chunk) (List.mem_cons_self _ _)
          (List.map_eq_nil_iff.mp hnil)
      obtain ⟨padded, hpad⟩ := padLastGo_total
        (pp.sector_count - ((pub_chunk.zip priv_chunk).map
          (windowSectorProofOf env pp randomness)).length) _ hcorene
      obtain ⟨last, hlast, hpadded⟩ := padLast_ok_of_ne_nil _ _ _ hcorene hpad
      rw [List.nil_append, padLast, hpad]
      dsimp only
      rw [ih (acc ++ [Proof.mk padded]) faults
        (fun cp2 hcp2 => hgood cp2 (List.mem_cons_of_mem _ hcp2))
        (fun cp2 hcp2 => hne cp2 (List.mem_cons_of_mem _ hcp2))]
      have hpartition : (⟨padded⟩ : Proof)
          = windowPartitionProofOf env pp randomness
              (pub_chunk, priv_chunk) := by
        unfold windowPartitionProofOf
        rw [hpadded, hlast]
        simp [List.length_map]
      rw [hpartition]
      simp

theorem chunks_zip_ne_nil {α β : Type} (n : Nat) (hn : n ≠ 0) (l1 : List α)
    (l2 : List β) :
    ∀ cp ∈ (chunks n l1).zip (chunks n l2),
      cp.1.zip cp.2 ≠ ([] : List (α × β)) := by
  intro cp hcp
  have hmem := List.of_mem_zip hcp
  have hc1 := chunks_mem _ hn l1 _ hmem.1
  have hc2 := chunks_mem _ hn l2 _ hmem.2
  rcases List.exists_cons_of_ne_nil hc1.1 with ⟨a, as, ha⟩
  rcases List.exists_cons_of_ne_nil hc2.1 with ⟨b, bs, hb⟩
  rw [ha, hb]
  simp

/-! ## Helper lemmas: the Winning prover and verifier on good sectors -/

theorem proveWinningChallenges_good (env : HashEnv) (pp : PublicParams)
    (pub_sector : PublicSector) (priv_sector : PrivateSector)
    (rows_to_discard : Nat)
    (hgood : goodSectorPair env pp pub_sector priv_sector) :
    ∀ (cs : List Nat) (proofs : List SectorProof) (faults : List Nat),
      proveWinningChallenges env pub_sector priv_sector rows_to_discard cs
        proofs faults
        = (proofs ++ cs.map (winningAccepted priv_sector rows_to_discard),
            faults) := by
  intro cs
  induction cs with
  | nil => intro proofs faults; simp [proveWinningChallenges]
  | cons c rest ih =>
      intro proofs faults
      obtain ⟨p, hp, hroot, hval, _⟩ := hgood.2 c (some rows_to_discard)
      rw [proveWinningChallenges, hp]
      dsimp only
      rw [if_pos (by simp [hval, hroot, hgood.1])]
      rw [ih]
      have hacc : winningAccepted priv_sector rows_to_discard c
          = ⟨[p], priv_sector.comm_c, priv_sector.comm_r_last⟩ := by
        unfold winningAccepted
        rw [hp]
      rw [List.map_cons, hacc]
      simp

theorem challengeIndexFor_winning (pp : PublicParams)
    (hshape : pp.shape = PoStShape.Winning) (hcc1 : pp.challenge_count = 1)
    (i : Nat) (hi : i < USIZE) :
    challengeIndexFor pp 0 i 0 = .ok i := by
  unfold challengeIndexFor
  rw [hshape]
  have hleg : wadd (wmul (wadd (wmul 0 pp.sector_count) i)
      pp.challenge_count) 0 = i := by
    rw [hcc1]
    unfold wadd wmul
    simp [Nat.mod_eq_of_lt hi]
  rw [hleg]
  simp

theorem verifySectors_winning_good (env : HashEnv) (pp : PublicParams)
    (randomness : Dom) (hshape : pp.shape = PoStShape.Winning)
    (hcc1 : pp.challenge_count = 1) (hdiv : 0 < pp.sector_size / NODE_SIZE)
    (hscU : pp.sector_count < USIZE) (pub0 : PublicSector)
    (priv0 : PrivateSector) (hgood : goodSectorPair env pp pub0 priv0) :
    ∀ L : List (Nat × (PublicSector × SectorProof)),
      (∀ e ∈ L, e.1 < pp.sector_count ∧ e.2.1 = pub0 ∧
        e.2.2 = winningAccepted priv0
          (env.rowsToDiscard priv0.tree.leafs env.arity)
          (leafChalVal env pp randomness pub0.id e.1)) →
      verifySectors env pp randomness 0 L = .ok true := by
  intro L
  induction L with
  | nil => intro _; rfl
  | cons e rest ih =>
      intro hcond
      obtain ⟨i, ps, sp⟩ := e
      obtain ⟨hi, hps, hsp⟩ := hcond (i, ps, sp) (List.mem_cons_self _ _)
      dsimp only at hi hps hsp
      obtain ⟨p, hp, hroot, hval, hpath⟩ := hgood.2
        (leafChalVal env pp randomness pub0.id i)
        (some (env.rowsToDiscard priv0.tree.leafs env.arity))
      have hspv : sp = ⟨[p], priv0.comm_c, priv0.comm_r_last⟩ := by
        rw [hsp]
        unfold winningAccepted
        rw [hp]
      rw [verifySectors, hspv, hps]
      dsimp only [List.head?]
      rw [if_neg (not_not_intro (by rw [hroot]; exact hgood.1.symm))]
      rw [if_neg (not_not_intro (by simp [hcc1]))]
      have hinner : verifyInclusionProofs env pp randomness 0 i pub0.id
          p.root ([p].enum) = .ok true := by
        dsimp only [List.enum, List.enumFrom]
        rw [verifyInclusionProofs,
          challengeIndexFor_winning pp hshape hcc1 i (lt_trans hi hscU)]
        dsimp only
        rw [generate_leaf_challenge_ok env pp randomness pub0.id i hdiv]
        dsimp only
        rw [if_neg (not_not_intro rfl)]
        rw [if_neg (not_not_intro (by rw [hpath]))]
        rw [if_neg (by simp [hval])]
        rfl
      rw [hinner]
      dsimp only
      exact ih (fun e2 he2 => hcond e2 (List.mem_cons_of_mem _ he2))

/-! ## C1 -/

/-- C1 (amended): for every call satisfying the prover's preconditions
(`validCall`) on which every `(public, private)` sector pair is good — the
tree collaborator honours its contract with validating, correctly rooted,
correct-length proofs, and `comm_r = hash2(comm_c, comm_r_last)` — and, in
the Winning shape, all public sectors are equal (the construction repeats the
single proven sector; the prover examines only sector 0 while the verifier
checks every public sector against its proofs), the proofs produced by
`prove_all_partitions` verify: binding them through `verify_all_partitions`
on the same public parameters and inputs yields `Ok(true)`.  (Without the
Winning uniformity condition the round trip fails — see the
counterexample — so the claim as stated is false.) -/
theorem prove_verify_roundtrip (env : HashEnv) (pp : PublicParams)
    (pub_inputs : PublicInputs) (priv_inputs : PrivateInputs)
    (partition_count : Nat)
    (hvalid : validCall pp pub_inputs priv_inputs partition_count)
    (hgood : ∀ q ∈ pub_inputs.sectors.zip priv_inputs.sectors,
        goodSectorPair env pp q.1 q.2)
    (huniform : pp.shape = PoStShape.Winning →
        ∀ s ∈ pub_inputs.sectors, ∀ t ∈ pub_inputs.sectors, s = t) :
    (prove_all_partitions env pp pub_inputs priv_inputs
        partition_count).bind
      (verify_all_partitions env pp pub_inputs) = .ok true := by
  unfold validCall at hvalid
  obtain ⟨hlen, hdiv, hcc, hsc, hscU, hrest⟩ := hvalid
  have hnspc : pp.sector_count ≠ 0 := Nat.pos_iff_ne_zero.mp hsc
  cases hps : pp.shape with
  | Window =>
      rw [hps] at hrest
      dsimp only at hrest
      obtain ⟨hens, hbound⟩ := hrest
      have hgoods : ∀ cp ∈ (chunks pp.sector_count pub_inputs.sectors).zip
          (chunks pp.sector_count priv_inputs.sectors),
          ∀ q ∈ cp.1.zip cp.2, goodSectorPair env pp q.1 q.2 := by
        intro cp hcp q hq
        exact hgood q ((zip_chunks_mem pp.sector_count hnspc _ _ q
          hlen.symm).mp ⟨cp, hcp, hq⟩)
      have hensW : pub_inputs.sectors.length
          ≤ wmul partition_count pp.sector_count := by
        unfold wmul
        rw [Nat.mod_eq_of_lt hbound]
        exact hens
      have hprove : prove_all_partitions env pp pub_inputs priv_inputs
          partition_count
          = .ok (((chunks pp.sector_count pub_inputs.sectors).zip
              (chunks pp.sector_count priv_inputs.sectors)).map
            (windowPartitionProofOf env pp pub_inputs.randomness)) := by
        rw [prove_all_partitions, if_neg (not_not_intro hlen), proveBody,
          hps]
        rw [if_neg (not_not_intro hensW), if_neg hnspc]
        rw [proveWindowPartitions_good env pp pub_inputs.randomness hdiv _
          [] [] hgoods (chunks_zip_ne_nil _ hnspc _ _)]
        dsimp only
        rw [List.nil_append]
        rfl
      rw [hprove]
      dsimp only [Except.bind]
      have hclen : (chunks pp.sector_count pub_inputs.sectors).length
          = (chunks pp.sector_count priv_inputs.sectors).length :=
        chunks_length_eq _ hnspc pub_inputs.sectors.length
          pub_inputs.sectors priv_inputs.sectors le_rfl hlen.symm
      have hcpslen : ((chunks pp.sector_count pub_inputs.sectors).zip
          (chunks pp.sector_count priv_inputs.sectors)).length
          = (chunks pp.sector_count pub_inputs.sectors).length := by
        rw [List.length_zip, ← hclen, Nat.min_self]
      have hnum_le_pc : (chunks pp.sector_count pub_inputs.sectors).length
          ≤ partition_count :=
        chunks_length_le _ hnspc pub_inputs.sectors.length partition_count
          pub_inputs.sectors le_rfl hens
      have hprslen : (((chunks pp.sector_count pub_inputs.sectors).zip
          (chunks pp.sector_count priv_inputs.sectors)).map
            (windowPartitionProofOf env pp pub_inputs.randomness)).length
          = (chunks pp.sector_count pub_inputs.sectors).length := by
        rw [List.length_map, hcpslen]
      have hmul_le : pp.sector_count
            * (chunks pp.sector_count pub_inputs.sectors).length
          ≤ partition_count * pp.sector_count := by
        rw [Nat.mul_comm partition_count pp.sector_count]
        exact Nat.mul_le_mul_left _ hnum_le_pc
      have hens2 : pub_inputs.sectors.length
          ≤ wmul pp.sector_count
              ((((chunks pp.sector_count pub_inputs.sectors).zip
                (chunks pp.sector_count priv_inputs.sectors)).map
                (windowPartitionProofOf env pp
                  pub_inputs.randomness)).length) := by
        unfold wmul
        rw [hprslen, Nat.mod_eq_of_lt (lt_of_le_of_lt hmul_le hbound)]
        exact length_le_mul_chunks _ hnspc pub_inputs.sectors.length
          pub_inputs.sectors le_rfl
      rw [verify_all_partitions, if_neg (not_not_intro hens2), if_neg hnspc]
      have hzip : ((((chunks pp.sector_count pub_inputs.sectors).zip
          (chunks pp.sector_count priv_inputs.sectors)).map
            (windowPartitionProofOf env pp pub_inputs.randomness)).zip
          (chunks pp.sector_count pub_inputs.sectors))
          = (((chunks pp.sector_count pub_inputs.sectors).zip
              (chunks pp.sector_count priv_inputs.sectors)).map
            (fun cp => (windowPartitionProofOf env pp pub_inputs.randomness
              cp, cp.1))) :=
        map_zip_fst (windowPartitionProofOf env pp pub_inputs.randomness)
          (chunks pp.sector_count pub_inputs.sectors)
          (chunks pp.sector_count priv_inputs.sectors) hclen
      have hmemfact : ∀ pc ∈ ((((chunks pp.sector_count
          pub_inputs.sectors).zip
          (chunks pp.sector_count priv_inputs.sectors)).map
            (windowPartitionProofOf env pp pub_inputs.randomness)).zip
          (chunks pp.sector_count pub_inputs.sectors)),
          pc.2.length ≤ pp.sector_count
          ∧ pc.1.sectors.length = pp.sector_count
          ∧ (∀ q ∈ pc.2.zip pc.1.sectors,
              q.2.inclusion_proofs.length = pp.challenge_count)
          ∧ (pc.2.zip pc.1.sectors).all
              (fun q => sectorChecks env pp pub_inputs.randomness q.1 q.2)
              = true := by
        intro pc hpc
        rw [hzip] at hpc
        obtain ⟨cp, hcp, hpc2⟩ := List.mem_map.mp hpc
        subst hpc2
        dsimp only
        have hof := List.of_mem_zip hcp
        have hchunk := chunks_mem _ hnspc pub_inputs.sectors _ hof.1
        have hchl := chunks_zip_length_eq _ hnspc pub_inputs.sectors.length
          pub_inputs.sectors priv_inputs.sectors le_rfl hlen.symm cp hcp
        have hzl : (cp.1.zip cp.2).length = cp.1.length := by
          rw [List.length_zip, ← hchl, Nat.min_self]
        have hseceq : (windowPartitionProofOf env pp pub_inputs.randomness
            cp).sectors
            = (cp.1.zip cp.2).map
                (windowSectorProofOf env pp pub_inputs.randomness)
              ++ List.replicate
                  (pp.sector_count - (cp.1.zip cp.2).length)
                  (((cp.1.zip cp.2).map (windowSectorProofOf env pp
                    pub_inputs.randomness)).getLast?.getD default) := rfl
        have hslen : (windowPartitionProofOf env pp pub_inputs.randomness
            cp).sectors.length = pp.sector_count := by
          rw [hseceq, List.length_append, List.length_replicate,
            List.length_map, hzl]
          have h1 := hchunk.2
          omega
        have hzipsec : cp.1.zip (windowPartitionProofOf env pp
            pub_inputs.randomness cp).sectors
            = (cp.1.zip cp.2).map (fun q => (q.1,
                windowSectorProofOf env pp pub_inputs.randomness q)) := by
          rw [hseceq, zip_append_right _ _ _
            (by rw [List.length_map, hzl]), zip_map_zip]
        refine ⟨hchunk.2, hslen, ?_, ?_⟩
        · intro q hq
          rw [hzipsec] at hq
          obtain ⟨q0, hq0, hq2⟩ := List.mem_map.mp hq
          rw [← hq2]
          dsimp only
          simp [windowSectorProofOf]
        · rw [hzipsec, List.all_eq_true]
          intro q hq
          obtain ⟨q0, hq0, hq2⟩ := List.mem_map.mp hq
          obtain ⟨a, b⟩ := q0
          rw [← hq2]
          dsimp only
          exact windowSectorProofOf_checks env pp pub_inputs.randomness a b
            (hgoods cp hcp (a, b) hq0) hcc
      rw [verifyPartitions_window env pp pub_inputs.randomness hps hdiv hcc]
      · rw [List.enum, enumFrom_all
          (fun pc : Proof × List PublicSector =>
            (pc.2.zip pc.1.sectors).all
              fun q => sectorChecks env pp pub_inputs.randomness q.1 q.2)
          ((((chunks pp.sector_count pub_inputs.sectors).zip
            (chunks pp.sector_count priv_inputs.sectors)).map
              (windowPartitionProofOf env pp pub_inputs.randomness)).zip
            (chunks pp.sector_count pub_inputs.sectors)) 0]
        rw [List.all_eq_true.mpr
          (fun pc hpc => (hmemfact pc hpc).2.2.2)]
      · exact (enumFrom_forall
          (fun pc : Proof × List PublicSector =>
            pc.2.length ≤ pp.sector_count
            ∧ pc.1.sectors.length = pp.sector_count
            ∧ ∀ q ∈ pc.2.zip pc.1.sectors,
                q.2.inclusion_proofs.length = pp.challenge_count)
          _ 0).mpr
          (fun pc hpc => ⟨(hmemfact pc hpc).1, (hmemfact pc hpc).2.1,
            (hmemfact pc hpc).2.2.1⟩)
  | Winning =>
      rw [hps] at hrest
      dsimp only at hrest
      obtain ⟨hcount, hcc1⟩ := hrest
      obtain ⟨pub0, pubRest, hpub⟩ := List.exists_cons_of_ne_nil
        (show pub_inputs.sectors ≠ [] by
          intro hnil
          rw [hnil] at hcount
          simp at hcount
          omega)
      obtain ⟨priv0, privRest, hpriv⟩ := List.exists_cons_of_ne_nil
        (show priv_inputs.sectors ≠ [] by
          intro hnil
          rw [hnil, hpub] at hlen
          simp at hlen)
      have hgood0 : goodSectorPair env pp pub0 priv0 := by
        apply hgood (pub0, priv0)
        rw [hpub, hpriv, List.zip_cons_cons]
        exact List.mem_cons_self _ _
      have hprove : prove_all_partitions env pp pub_inputs priv_inputs
          partition_count
          = .ok [⟨((List.range pp.sector_count).map
              (leafChalVal env pp pub_inputs.randomness pub0.id)).map
              (winningAccepted priv0
                (env.rowsToDiscard priv0.tree.leafs env.arity))⟩] := by
        rw [prove_all_partitions, if_neg (not_not_intro hlen), proveBody,
          hps]
        dsimp only
        rw [if_neg (not_not_intro ⟨hcount, hsc⟩),
          if_neg (not_not_intro hlen), if_neg (not_not_intro hcc1)]
        rw [hpub, hpriv]
        dsimp only
        rw [generate_leaf_challenges_ok env pp pub_inputs.randomness pub0.id
          pp.sector_count hdiv]
        dsimp only
        rw [proveWinningChallenges_good env pp pub0 priv0
          (env.rowsToDiscard priv0.tree.leafs env.arity) hgood0
          ((List.range pp.sector_count).map
            (leafChalVal env pp pub_inputs.randomness pub0.id)) [] []]
        dsimp only
        rw [List.nil_append]
        rfl
      rw [hprove]
      dsimp only [Except.bind]
      have hens2 : pub_inputs.sectors.length
          ≤ wmul pp.sector_count 1 := by
        unfold wmul
        rw [Nat.mul_one, Nat.mod_eq_of_lt hscU, hcount]
      rw [verify_all_partitions, List.length_singleton,
        if_neg (not_not_intro hens2), if_neg hnspc]
      have hchunks1 : chunks pp.sector_count pub_inputs.sectors
          = [pub_inputs.sectors] :=
        chunks_single _ hnspc _ (by rw [hpub]; simp) (le_of_eq hcount)
      rw [hchunks1]
      rw [List.zip_cons_cons, List.zip_nil_right, List.enum]
      rw [List.enumFrom]
      rw [verifyPartitions]
      rw [if_neg (not_not_intro (le_of_eq hcount))]
      have hsecs : (Proof.mk (((List.range pp.sector_count).map
          (leafChalVal env pp pub_inputs.randomness pub0.id)).map
          (winningAccepted priv0
            (env.rowsToDiscard priv0.tree.leafs env.arity)))).sectors.length
          = pp.sector_count := by
        simp
      rw [if_neg (not_not_intro hsecs)]
      have hsec : verifySectors env pp pub_inputs.randomness 0
          ((pub_inputs.sectors.zip
            (((List.range pp.sector_count).map
              (leafChalVal env pp pub_inputs.randomness pub0.id)).map
              (winningAccepted priv0
                (env.rowsToDiscard priv0.tree.leafs
                  env.arity)))).enum) = .ok true := by
        apply verifySectors_winning_good env pp pub_inputs.randomness hps
          hcc1 hdiv hscU pub0 priv0 hgood0
        intro e he
        rw [List.enum] at he
        obtain ⟨i, hilt, h1, h2⟩ := enumFrom_mem_getElem _ 0 e he
        have hizip : i < pub_inputs.sectors.length := by
          have h3 := hilt
          rw [List.length_zip] at h3
          exact lt_of_lt_of_le h3 (Nat.min_le_left _ _)
        have hgeti : ∃ hpi : i < pub_inputs.sectors.length,
            ∃ hvi : i < (((List.range pp.sector_count).map
              (leafChalVal env pp pub_inputs.randomness pub0.id)).map
              (winningAccepted priv0
                (env.rowsToDiscard priv0.tree.leafs
                  env.arity))).length,
            e.2 = (pub_inputs.sectors.get ⟨i, hpi⟩,
              ((((List.range pp.sector_count).map
                (leafChalVal env pp pub_inputs.randomness pub0.id)).map
                (winningAccepted priv0
                  (env.rowsToDiscard priv0.tree.leafs
                    env.arity)))).get ⟨i, hvi⟩) := by
          refine ⟨hizip, ?_, ?_⟩
          · rw [List.length_map, List.length_map, List.length_range]
            omega
          · rw [h2]
            apply List.get_zip
        obtain ⟨hpi, hvi, hgete⟩ := hgeti
        have he1 : e.1 = i := by omega
        have hmemi : pub_inputs.sectors.get ⟨i, hpi⟩ = pub0 := by
          apply huniform hps
          · exact List.get_mem _ _ _
          · rw [hpub]; exact List.mem_cons_self _ _
        have hveq : ((((List.range pp.sector_count).map
            (leafChalVal env pp pub_inputs.randomness pub0.id)).map
            (winningAccepted priv0
              (env.rowsToDiscard priv0.tree.leafs
                env.arity)))).get ⟨i, hvi⟩
            = winningAccepted priv0
                (env.rowsToDiscard priv0.tree.leafs env.arity)
                (leafChalVal env pp pub_inputs.randomness pub0.id i) := by
          simp
        refine ⟨?_, ?_, ?_⟩
        · rw [he1]; rw [hcount] at hizip; exact hizip
        · rw [hgete]
          dsimp only
          exact hmemi
        · rw [hgete, he1]
          dsimp only
          rw [hveq]
      rw [hsec]
      rfl

/-- C1 counterexample: a Winning call with two distinct public sectors, each
individually consistent (its tree honours its contract and its `comm_r`
equals `hash2(comm_c, comm_r_last)`) and satisfying every prover
precondition, on which the proofs produced by `prove_all_partitions` fail
verification: the prover derives both challenges from sector 0 only, while
the verifier checks sector 1's `comm_r` against sector 0's proof. -/
theorem prove_verify_roundtrip_fails_on_distinct_winning_sectors :
    validCall ppN2 pubN2 privN2 1
    ∧ (∀ q ∈ pubN2.sectors.zip privN2.sectors,
        goodSectorPair env0 ppN2 q.1 q.2)
    ∧ (prove_all_partitions env0 ppN2 pubN2 privN2 1).bind
        (verify_all_partitions env0 ppN2 pubN2) = .ok false := by
  refine ⟨by decide, ?_, by decide⟩
  intro q hq
  have hq2 : q = (⟨0, env0.hash2 [3] [0]⟩, ⟨goodTree [0], [3], [0]⟩)
      ∨ q = (⟨1, env0.hash2 [4] [2]⟩, ⟨goodTree [2], [4], [2]⟩) := by
    simpa [pubN2, privN2] using hq
  unfold goodSectorPair
  rcases hq2 with h | h <;> rw [h] <;>
    exact ⟨rfl, fun leaf rows => ⟨goodProof _, rfl, rfl, rfl, rfl⟩⟩

/-- Witness for C1 (amended): the good Window instance with three sectors
over two partitions round-trips to `Ok(true)`. -/
theorem prove_verify_roundtrip_witness :
    validCall ppW pubW privW 2
    ∧ (prove_all_partitions env0 ppW pubW privW 2).bind
        (verify_all_partitions env0 ppW pubW) = .ok true := by
  refine ⟨by decide, ?_⟩
  apply prove_verify_roundtrip env0 ppW pubW privW 2 (by decide) ?_
    (fun h => nomatch h)
  intro q hq
  have hq2 : q = (⟨0, env0.hash2 [3] [0]⟩, ⟨goodTree [0], [3], [0]⟩)
      ∨ q = (⟨1, env0.hash2 [4] [2]⟩, ⟨goodTree [2], [4], [2]⟩)
      ∨ q = (⟨2, env0.hash2 [6] [9]⟩, ⟨goodTree [9], [6], [9]⟩) := by
    simpa [pubW, privW] using hq
  unfold goodSectorPair
  rcases hq2 with h | h | h <;> rw [h] <;>
    exact ⟨rfl, fun leaf rows => ⟨goodProof _, rfl, rfl, rfl, rfl⟩⟩

end FallbackPoSt
